import Mathlib

/-!
# Verification of the `clust-rs` DBSCAN implementation

Shallow embedding of `src/dbscan.rs`.  Points are rows of an `Array2<T>` with
`T : Float`; the numeric type is modelled abstractly (per the spec) by `ℚ`.
The kd-tree (`kdtree` crate, external to this repository) is modelled
extensionally by its documented contract: `within(row, eps², squared_euclidean)`
returns every stored index whose squared Euclidean distance to `row` is `≤ eps²`
(order unspecified); here it returns the indices in increasing order, each once.

Rust's `Vec::pop` removes the *last* element; the algorithm keeps its working
set sorted ascending and deduplicated, so it always pops the largest element.
The embedding represents the working set sorted *descending* (`sortDedupDesc`)
and pops the head — the same sequence of popped indices.

The random visitation order (`rand::seq::index::sample(rng, n, n)`, a uniformly
random permutation of `0..n`) is modelled by an explicit permutation parameter
`perm`; theorems quantify over all `perm` that are permutations of
`List.range n`.

The inner expansion loop is not structurally recursive; it is embedded with an
explicit fuel parameter, and termination (`expand` never runs out of fuel for
the fuel supplied by `fit`) is proved below.
-/

namespace Clust

/-- A point: one row of the `Array2<T>` data matrix. -/
abbrev Pt := List ℚ

/-- `kdtree::distance::squared_euclidean`: the squared Euclidean distance
between two coordinate slices. -/
def squared_euclidean (a b : Pt) : ℚ :=
  (List.zipWith (fun x y => (x - y) ^ 2) a b).sum

/-- `region_query` of `dbscan.rs` combined with the kd-tree contract: all
stored indices `j` with squared distance from `row` to point `j` at most
`eps²` (the source passes `eps.powi(2)` as the radius to `KdTree::within`
with the `squared_euclidean` metric). -/
def region_query (data : List Pt) (eps : ℚ) (row : Pt) : List Nat :=
  (List.range data.length).filter
    (fun j => squared_euclidean row (data.getD j []) ≤ eps ^ 2)

/-- Insert into a strictly descending list, keeping it strictly descending
(duplicates dropped). -/
def insertDesc (a : Nat) : List Nat → List Nat
  | [] => [a]
  | b :: l => if b < a then a :: b :: l else if a = b then b :: l else b :: insertDesc a l

/-- `Vec::sort_unstable_by` followed by `Vec::dedup`, with the descending
representation of the working set (see the header comment): the distinct
elements of `l`, sorted descending, so that popping the head pops the
largest element exactly as `Vec::pop` does on the ascending vector. -/
def sortDedupDesc (l : List Nat) : List Nat := l.foldr insertDesc []

/-- The mutable state of `Dbscan::new`: the `visited` and `clusters` vectors. -/
structure DbscanState where
  visited : List Bool
  clusters : List Nat
  deriving Repr, DecidableEq

/-- The inner `while let Some(neighbour_idx) = neighbours.pop()` loop of
`Dbscan::new`, expanding cluster `c`.  `ws` is the working set
(`neighbours`, descending representation).  Fuel makes the recursion
structural; `none` means fuel ran out (proved impossible below for the
fuel `fit` supplies). -/
def expand (data : List Pt) (eps : ℚ) (min_points : Nat) (borders : Bool) (c : Nat) :
    Nat → List Nat → DbscanState → Option DbscanState
  | 0, _, _ => none
  | _ + 1, [], st => some st
  | fuel + 1, j :: rest, st =>
    -- `if borders { clusters[neighbour_idx] = c; }`
    let cl1 := if borders then st.clusters.set j c else st.clusters
    if st.visited.getD j true then
      expand data eps min_points borders c fuel rest ⟨st.visited, cl1⟩
    else
      -- `visited[neighbour_idx] = true;` then re-query the region
      let sub := region_query data eps (data.getD j [])
      if min_points ≤ sub.length then
        -- core point: `if !borders { clusters[neighbour_idx] = c; }`, merge
        expand data eps min_points borders c fuel (sortDedupDesc (rest ++ sub))
          ⟨st.visited.set j true, if borders then cl1 else cl1.set j c⟩
      else
        expand data eps min_points borders c fuel rest ⟨st.visited.set j true, cl1⟩

/-- Fuel supplied to every `expand` call made by `fit`; proved sufficient. -/
def fuelFor (data : List Pt) : Nat := (data.length + 1) * (data.length + 1) + 1

/-- The outer `for row_idx in indices.iter()` loop of `Dbscan::new`:
`rem` is the remaining suffix of the random permutation, `c` the next
cluster id.  Returns the final state and final counter. -/
def fitLoop (data : List Pt) (eps : ℚ) (min_points : Nat) (borders : Bool) :
    List Nat → Nat → DbscanState → Option (DbscanState × Nat)
  | [], c, st => some (st, c)
  | i :: rem, c, st =>
    if st.visited.getD i true then
      fitLoop data eps min_points borders rem c st
    else
      let nbrs := sortDedupDesc (region_query data eps (data.getD i []))
      if min_points ≤ nbrs.length then
        match expand data eps min_points borders c (fuelFor data) nbrs
            ⟨st.visited.set i true, st.clusters.set i c⟩ with
        | none => none
        | some st' => fitLoop data eps min_points borders rem (c + 1) st'
      else
        fitLoop data eps min_points borders rem c ⟨st.visited.set i true, st.clusters⟩

/-- `Dbscan::new` run with visitation order `perm`, exposing the final
state and cluster counter. -/
def dbscan_fit (data : List Pt) (eps : ℚ) (min_points : Nat) (borders : Bool)
    (perm : List Nat) : Option (DbscanState × Nat) :=
  fitLoop data eps min_points borders perm 1
    ⟨List.replicate data.length false, List.replicate data.length 0⟩

/-- The fitted model `Dbscan<T>`: `eps`, `min_points` and the `clusters`
vector. -/
structure Dbscan where
  eps : ℚ
  min_points : Nat
  clusters : List Nat
  deriving Repr, DecidableEq

/-- `Dbscan::new(data, eps, min_points, borders)` with visitation order
`perm`. -/
def dbscan_new (data : List Pt) (eps : ℚ) (min_points : Nat) (borders : Bool)
    (perm : List Nat) : Option Dbscan :=
  (dbscan_fit data eps min_points borders perm).map
    (fun out => ⟨eps, min_points, out.1.clusters⟩)

/-- `self.clusters[*idx]` for each neighbour index; a Rust out-of-bounds
panic is modelled as `none`. -/
def lookupAll (clusters : List Nat) : List Nat → Option (List Nat)
  | [] => some []
  | j :: rest =>
    match clusters.get? j, lookupAll clusters rest with
    | some v, some l => some (v :: l)
    | _, _ => none

/-- `itertools`' `unique()` adaptor: keep the first occurrence of each
element, in order. -/
def uniqueFirstAux (seen : List Nat) : List Nat → List Nat
  | [] => []
  | a :: l => if a ∈ seen then uniqueFirstAux seen l else a :: uniqueFirstAux (a :: seen) l

def uniqueFirst (l : List Nat) : List Nat := uniqueFirstAux [] l

/-- The per-row body of `Dbscan::predict`: query the neighbourhood of `row`
over the reference points, map each neighbour index to its fitted label
(`none` on an out-of-bounds index), keep the distinct labels `> 0`, and
fall back to `[0]` when none remain. -/
def predict_row (m : Dbscan) (data : List Pt) (row : Pt) : Option (List Nat) :=
  match lookupAll m.clusters (region_query data m.eps row) with
  | none => none
  | some labs =>
    let nc := (uniqueFirst labs).filter (fun c => 0 < c)
    some (if 0 < nc.length then nc else [0])

/-- `Dbscan::predict(&self, data, new_data)`: classify each row of
`new_data` independently against the reference points `data`. -/
def Dbscan.predict (m : Dbscan) (data : List Pt) : List Pt → Option (List (List Nat))
  | [] => some []
  | row :: rows =>
    match predict_row m data row, m.predict data rows with
    | some r, some rs => some (r :: rs)
    | _, _ => none

/-- Modelled from the spec: the point-set construction performed by the
caller (ndarray's `Array2` building, external to this repository), which
"fails with `DimensionMismatch` if any point's dimensionality differs from
the first". -/
def build_point_set (rows : List Pt) : Option (List Pt) :=
  match rows with
  | [] => some []
  | r :: rs => if rs.all (fun s => s.length = r.length) then some (r :: rs) else none

/-- A point is a *core point*: its eps-neighbourhood (which contains the
point itself) has at least `min_points` members. -/
def isCore (data : List Pt) (eps : ℚ) (min_points : Nat) (i : Nat) : Prop :=
  min_points ≤ (region_query data eps (data.getD i [])).length

instance (data : List Pt) (eps : ℚ) (min_points : Nat) (i : Nat) :
    Decidable (isCore data eps min_points i) := by
  unfold isCore; infer_instance

/-- A point index lies within `eps` of some core point (itself included):
exactly the points a borders-mode fit labels with a cluster id. -/
def covered (data : List Pt) (eps : ℚ) (min_points : Nat) (i : Nat) : Prop :=
  ∃ p ∈ List.range data.length,
    isCore data eps min_points p ∧ i ∈ region_query data eps (data.getD p [])

instance (data : List Pt) (eps : ℚ) (min_points : Nat) (i : Nat) :
    Decidable (covered data eps min_points i) := by
  unfold covered; infer_instance

/-- The distinct non-zero labels of a fitted clustering, in order of first
occurrence. -/
def distinctNonzero (l : List Nat) : List Nat :=
  uniqueFirst (l.filter (fun x => x ≠ 0))

/-! ## Enumerating visitation orders

`rand::seq::index::sample(rng, n, n)` yields an arbitrary permutation of
`0..n`; to decide statements quantified over every visitation order we
enumerate all permutations with a structurally recursive generator. -/

/-- All ways to insert `a` into one position of a list. -/
def insertsEverywhere (a : Nat) : List Nat → List (List Nat)
  | [] => [[a]]
  | b :: l => (a :: b :: l) :: (insertsEverywhere a l).map (b :: ·)

/-- All permutations of a list (structurally recursive, so it evaluates
inside `decide`). -/
def allPerms : List Nat → List (List Nat)
  | [] => [[]]
  | a :: l => (allPerms l).flatMap (insertsEverywhere a)

theorem mem_insertsEverywhere (a : Nat) (s t : List Nat) :
    s ++ a :: t ∈ insertsEverywhere a (s ++ t) := by
  induction s with
  | nil => cases t <;> simp [insertsEverywhere]
  | cons b s ih =>
    simp only [List.cons_append, insertsEverywhere, List.mem_cons, List.mem_map]
    exact Or.inr ⟨s ++ a :: t, ih, rfl⟩

/-- Every permutation of `l` appears in `allPerms l`. -/
theorem mem_allPerms_of_perm : ∀ {l p : List Nat}, p.Perm l → p ∈ allPerms l := by
  intro l
  induction l with
  | nil => intro p hp; simp [allPerms, hp.eq_nil]
  | cons a l ih =>
    intro p hp
    have ha : a ∈ p := hp.mem_iff.2 (List.mem_cons_self a l)
    obtain ⟨s, t, rfl⟩ := List.append_of_mem ha
    have h1 : (s ++ t).Perm l := by
      have h2 : (a :: (s ++ t)).Perm (a :: l) := List.perm_middle.symm.trans hp
      exact h2.cons_inv
    simp only [allPerms, List.mem_flatMap]
    exact ⟨s ++ t, ih h1, mem_insertsEverywhere a s t⟩

/-! ## Elementary list lemmas -/

theorem getD_of_length_le {α : Type} :
    ∀ (l : List α) (i : Nat) (d : α), l.length ≤ i → l.getD i d = d := by
  intro l
  induction l with
  | nil => intro i d _; cases i <;> rfl
  | cons b l ih =>
    intro i d h
    cases i with
    | zero => simp at h
    | succ i => simpa using ih i d (by simpa using h)

theorem lt_length_of_getD_ne {α : Type} (l : List α) (i : Nat) (d : α)
    (h : l.getD i d ≠ d) : i < l.length := by
  by_contra hlt
  exact h (getD_of_length_le l i d (by omega))

theorem getD_set_ne {α : Type} :
    ∀ (l : List α) (i j : Nat) (a d : α), i ≠ j →
      (l.set i a).getD j d = l.getD j d := by
  intro l
  induction l with
  | nil => intros; rfl
  | cons b l ih =>
    intro i j a d hij
    cases i with
    | zero =>
      cases j with
      | zero => exact absurd rfl hij
      | succ j => rfl
    | succ i =>
      cases j with
      | zero => rfl
      | succ j => simpa using ih i j a d (by omega)

theorem getD_set_self {α : Type} :
    ∀ (l : List α) (i : Nat) (a d : α), i < l.length →
      (l.set i a).getD i d = a := by
  intro l
  induction l with
  | nil => intro i _ _ h; simp at h
  | cons b l ih =>
    intro i a d h
    cases i with
    | zero => rfl
    | succ i => simpa using ih i a d (by simpa using h)

theorem count_false_set_true :
    ∀ (l : List Bool) (j : Nat), l.getD j true = false →
      (l.set j true).count false + 1 = l.count false := by
  intro l
  induction l with
  | nil => intro j h; rw [getD_of_length_le] at h <;> simp at h ⊢
  | cons b l ih =>
    intro j h
    cases j with
    | zero =>
      have hb : b = false := h
      subst hb
      simp [List.count_cons]
    | succ j =>
      have h' : l.getD j true = false := h
      have := ih j h'
      show (b :: l.set j true).count false + 1 = (b :: l).count false
      simp only [List.count_cons]
      omega

/-! ## Lemmas about `sortDedupDesc` -/

theorem mem_insertDesc {x a : Nat} :
    ∀ {l : List Nat}, x ∈ insertDesc a l ↔ x = a ∨ x ∈ l := by
  intro l
  induction l with
  | nil => simp [insertDesc]
  | cons b l ih =>
    simp only [insertDesc]
    split
    · simp
    · split
      · rename_i h1 h2
        subst h2
        simp only [List.mem_cons]
        tauto
      · simp only [List.mem_cons, ih]
        tauto

theorem mem_sortDedupDesc {x : Nat} :
    ∀ {l : List Nat}, x ∈ sortDedupDesc l ↔ x ∈ l := by
  intro l
  induction l with
  | nil => simp [sortDedupDesc]
  | cons a l ih =>
    show x ∈ insertDesc a (sortDedupDesc l) ↔ _
    rw [mem_insertDesc]
    simp [ih]

theorem length_insertDesc_le (a : Nat) :
    ∀ (l : List Nat), (insertDesc a l).length ≤ l.length + 1 := by
  intro l
  induction l with
  | nil => simp [insertDesc]
  | cons b l ih =>
    by_cases h1 : b < a
    · simp [insertDesc, h1]
    · by_cases h2 : a = b
      · simp [insertDesc, h1, h2]
      · simp only [insertDesc, if_neg h1, if_neg h2, List.length_cons]
        omega

theorem length_sortDedupDesc_le :
    ∀ (l : List Nat), (sortDedupDesc l).length ≤ l.length := by
  intro l
  induction l with
  | nil => simp [sortDedupDesc]
  | cons a l ih =>
    show (insertDesc a (sortDedupDesc l)).length ≤ l.length + 1
    calc (insertDesc a (sortDedupDesc l)).length ≤ (sortDedupDesc l).length + 1 :=
          length_insertDesc_le a _
      _ ≤ l.length + 1 := by omega

theorem length_insertDesc_of_not_mem (a : Nat) :
    ∀ (l : List Nat), a ∉ l → (insertDesc a l).length = l.length + 1 := by
  intro l
  induction l with
  | nil => intro _; rfl
  | cons b l ih =>
    intro hmem
    by_cases h1 : b < a
    · simp [insertDesc, h1]
    · have h2 : a ≠ b := by intro h; exact hmem (h ▸ List.mem_cons_self b l)
      simp only [insertDesc, if_neg h1, if_neg h2, List.length_cons]
      rw [ih (fun h => hmem (List.mem_cons_of_mem b h))]

theorem length_sortDedupDesc_of_nodup :
    ∀ (l : List Nat), l.Nodup → (sortDedupDesc l).length = l.length := by
  intro l
  induction l with
  | nil => intro _; rfl
  | cons a l ih =>
    intro hnd
    show (insertDesc a (sortDedupDesc l)).length = l.length + 1
    have ha : a ∉ sortDedupDesc l := fun h =>
      (List.nodup_cons.1 hnd).1 (mem_sortDedupDesc.1 h)
    rw [length_insertDesc_of_not_mem a _ ha, ih (List.nodup_cons.1 hnd).2]

/-! ## Lemmas about `region_query` -/

theorem mem_region_query {data : List Pt} {eps : ℚ} {row : Pt} {j : Nat} :
    j ∈ region_query data eps row ↔
      j < data.length ∧ squared_euclidean row (data.getD j []) ≤ eps ^ 2 := by
  simp [region_query, List.mem_filter, List.mem_range]

theorem region_query_nodup (data : List Pt) (eps : ℚ) (row : Pt) :
    (region_query data eps row).Nodup :=
  (List.nodup_range data.length).filter _

theorem length_region_query_le (data : List Pt) (eps : ℚ) (row : Pt) :
    (region_query data eps row).length ≤ data.length := by
  calc (region_query data eps row).length ≤ (List.range data.length).length :=
        List.length_filter_le _ _
    _ = data.length := List.length_range data.length

theorem squared_euclidean_self (a : Pt) : squared_euclidean a a = 0 := by
  induction a with
  | nil => rfl
  | cons x a ih =>
    simp only [squared_euclidean, List.zipWith_cons_cons, List.sum_cons] at ih ⊢
    rw [sub_self, ih]
    ring

theorem squared_euclidean_comm (a b : Pt) :
    squared_euclidean a b = squared_euclidean b a := by
  induction a generalizing b with
  | nil => cases b <;> rfl
  | cons x a ih =>
    cases b with
    | nil => rfl
    | cons y b =>
      simp only [squared_euclidean, List.zipWith_cons_cons, List.sum_cons] at ih ⊢
      rw [ih b]
      ring_nf

theorem sq_eps_nonneg (eps : ℚ) : 0 ≤ eps ^ 2 := sq_nonneg eps

theorem self_mem_region_query {data : List Pt} {eps : ℚ} {i : Nat}
    (h : i < data.length) : i ∈ region_query data eps (data.getD i []) := by
  rw [mem_region_query]
  exact ⟨h, by rw [squared_euclidean_self]; exact sq_eps_nonneg eps⟩

theorem region_query_symm {data : List Pt} {eps : ℚ} {i j : Nat}
    (hi : i < data.length) (hj : j < data.length) :
    j ∈ region_query data eps (data.getD i []) ↔
      i ∈ region_query data eps (data.getD j []) := by
  rw [mem_region_query, mem_region_query, squared_euclidean_comm]
  tauto

/-! ## Termination: `expand` never exhausts the fuel `fit` gives it -/

/-- Number of yet-unvisited points: the quantity that strictly decreases
whenever the expansion visits a fresh point. -/
def unvisitedCount (st : DbscanState) : Nat := st.visited.count false

theorem expand_isSome (data : List Pt) (eps : ℚ) (mp : Nat) (b : Bool) (c : Nat) :
    ∀ (fuel : Nat) (ws : List Nat) (st : DbscanState),
      (data.length + 1) * unvisitedCount st + ws.length < fuel →
      ∃ st', expand data eps mp b c fuel ws st = some st' := by
  intro fuel
  induction fuel with
  | zero => intro ws st h; omega
  | succ fuel ih =>
    intro ws st h
    cases ws with
    | nil => exact ⟨st, rfl⟩
    | cons j rest =>
      show ∃ st', (if st.visited.getD j true then _ else _) = some st'
      by_cases hv : st.visited.getD j true
      · rw [if_pos hv]
        apply ih
        simp only [unvisitedCount] at h ⊢
        simp only [List.length_cons] at h
        omega
      · rw [if_neg hv]
        have hv' : st.visited.getD j true = false := by
          revert hv; cases st.visited.getD j true <;> simp
        have hcount := count_false_set_true st.visited j hv'
        by_cases hcore : mp ≤ (region_query data eps (data.getD j [])).length
        · rw [if_pos hcore]
          apply ih
          simp only [unvisitedCount] at h ⊢
          have h1 : (sortDedupDesc (rest ++ region_query data eps (data.getD j []))).length
              ≤ rest.length + data.length := by
            calc (sortDedupDesc (rest ++ region_query data eps (data.getD j []))).length
                ≤ (rest ++ region_query data eps (data.getD j [])).length :=
                  length_sortDedupDesc_le _
              _ = rest.length + (region_query data eps (data.getD j [])).length :=
                  List.length_append _ _
              _ ≤ rest.length + data.length := by
                  have := length_region_query_le data eps (data.getD j [])
                  omega
          simp only [List.length_cons] at h
          -- measure: one fewer unvisited point, working set grew by ≤ data.length
          have hc2 : (st.visited.set j true).count false + 1 = st.visited.count false := hcount
          nlinarith [hc2, h1]
        · rw [if_neg hcore]
          apply ih
          simp only [unvisitedCount] at h ⊢
          simp only [List.length_cons] at h
          nlinarith [hcount]

/-- `expand` only rewrites entries in place: both state vectors keep their
lengths. -/
theorem expand_lengths (data : List Pt) (eps : ℚ) (mp : Nat) (b : Bool) (c : Nat) :
    ∀ (fuel : Nat) (ws : List Nat) (st st' : DbscanState),
      expand data eps mp b c fuel ws st = some st' →
      st'.visited.length = st.visited.length ∧
        st'.clusters.length = st.clusters.length := by
  intro fuel
  induction fuel with
  | zero => intro ws st st' h; exact absurd h (by simp [expand])
  | succ fuel ih =>
    intro ws st st' h
    cases ws with
    | nil =>
      have : st = st' := by simpa [expand] using h
      simp [this]
    | cons j rest =>
      simp only [expand] at h
      by_cases hv : st.visited.getD j true
      · rw [if_pos hv] at h
        have := ih _ _ _ h
        simpa [List.length_set, apply_ite] using this
      · rw [if_neg hv] at h
        by_cases hcore : mp ≤ (region_query data eps (data.getD j [])).length
        · rw [if_pos hcore] at h
          have := ih _ _ _ h
          simpa [List.length_set, apply_ite] using this
        · rw [if_neg hcore] at h
          have := ih _ _ _ h
          simpa [List.length_set, apply_ite] using this

theorem fitLoop_isSome (data : List Pt) (eps : ℚ) (mp : Nat) (b : Bool) :
    ∀ (perm : List Nat) (c : Nat) (st : DbscanState),
      st.visited.length = data.length →
      ∃ out, fitLoop data eps mp b perm c st = some out := by
  intro perm
  induction perm with
  | nil => intro c st _; exact ⟨(st, c), rfl⟩
  | cons i rem ih =>
    intro c st hlen
    show ∃ out, (if st.visited.getD i true then _ else _) = some out
    by_cases hv : st.visited.getD i true
    · rw [if_pos hv]; exact ih c st hlen
    · rw [if_neg hv]
      by_cases hcore : mp ≤ (sortDedupDesc (region_query data eps (data.getD i []))).length
      · rw [if_pos hcore]
        have hterm : (data.length + 1) *
            unvisitedCount ⟨st.visited.set i true, st.clusters.set i c⟩ +
            (sortDedupDesc (region_query data eps (data.getD i []))).length <
            fuelFor data := by
          simp only [unvisitedCount, fuelFor]
          have h1 : (st.visited.set i true).count false ≤ data.length := by
            calc (st.visited.set i true).count false ≤ (st.visited.set i true).length :=
                  List.count_le_length _ _
              _ = data.length := by rw [List.length_set]; exact hlen
          have h2 : (sortDedupDesc (region_query data eps (data.getD i []))).length
              ≤ data.length := le_trans (length_sortDedupDesc_le _)
                (length_region_query_le data eps _)
          nlinarith
        obtain ⟨st', hst'⟩ := expand_isSome data eps mp b c (fuelFor data) _ _ hterm
        rw [hst']
        apply ih
        have := expand_lengths data eps mp b c (fuelFor data) _ _ _ hst'
        simp only [List.length_set] at this
        omega
      · rw [if_neg hcore]
        apply ih
        simpa using hlen

/-- Termination of `fit`: with the fuel supplied by `dbscan_fit`, the inner
expansion loop always drains its working set, so `fit` always produces a
result. -/
theorem dbscan_fit_isSome (data : List Pt) (eps : ℚ) (mp : Nat) (b : Bool)
    (perm : List Nat) : ∃ out, dbscan_fit data eps mp b perm = some out :=
  fitLoop_isSome data eps mp b perm 1 _ (List.length_replicate _ _)

/-! ## Further indexing helpers -/

theorem set_of_length_le {α : Type} :
    ∀ (l : List α) (i : Nat) (a : α), l.length ≤ i → l.set i a = l := by
  intro l
  induction l with
  | nil => intros; rfl
  | cons b l ih =>
    intro i a h
    cases i with
    | zero => simp at h
    | succ i => simp only [List.set]; rw [ih i a (by simpa using h)]

theorem getD_indep {α : Type} (l : List α) (j : Nat) (d d' : α)
    (hj : j < l.length) : l.getD j d = l.getD j d' := by
  induction l generalizing j with
  | nil => simp at hj
  | cons b l ih =>
    cases j with
    | zero => rfl
    | succ j => simpa using ih j (by simpa using hj)

/-- Either the `set` hit an in-range position, or it changed nothing at
position `j`. -/
theorem getD_set_cases {α : Type} (l : List α) (i j : Nat) (a d : α) :
    ((l.set i a).getD j d = a ∧ i = j ∧ j < l.length) ∨
      (l.set i a).getD j d = l.getD j d := by
  by_cases hij : i = j
  · subst hij
    by_cases hlen : i < l.length
    · exact Or.inl ⟨getD_set_self l i a d hlen, rfl, hlen⟩
    · right; rw [set_of_length_le l i a (by omega)]
  · exact Or.inr (getD_set_ne l i j a d hij)

theorem visited_set_mono (l : List Bool) {i : Nat} (j : Nat)
    (h : l.getD i false = true) : (l.set j true).getD i false = true := by
  rcases getD_set_cases l j i true false with ⟨h1, _, _⟩ | h1 <;> rw [h1]
  exact h

theorem unvisited_getD_false {l : List Bool} {j : Nat}
    (hv : l.getD j true = false) : l.getD j false = false := by
  have hj : j < l.length := lt_length_of_getD_ne l j true (by rw [hv]; simp)
  rw [getD_indep l j false true hj, hv]

/-- The seed test of `fit` (`neighbours.len() >= min_points` after sort +
dedup) is exactly the core-point test: the raw query result is duplicate
free. -/
theorem seed_check_iff_isCore (data : List Pt) (eps : ℚ) (mp : Nat) (i : Nat) :
    mp ≤ (sortDedupDesc (region_query data eps (data.getD i []))).length ↔
      isCore data eps mp i := by
  rw [length_sortDedupDesc_of_nodup _ (region_query_nodup data eps _)]
  exact Iff.rfl

/-! ## The expansion-loop invariant

`EInv data eps mp b c ws st` holds between iterations of the inner
expansion loop while cluster `c` is being grown with working set `ws`.
It carries everything the final characterisation theorems need:
well-formedness of the state vectors, soundness and completeness of the
labelling so far (for both settings of the borders flag), surjectivity of
the label range `1..c`, and the closure facts that make label `c`'s seed
impossible to steal. -/
structure EInv (data : List Pt) (eps : ℚ) (mp : Nat) (b : Bool) (c : Nat)
    (ws : List Nat) (st : DbscanState) : Prop where
  lenV : st.visited.length = data.length
  lenC : st.clusters.length = data.length
  cpos : 1 ≤ c
  lblVisited : ∀ i, st.clusters.getD i 0 ≠ 0 → st.visited.getD i false = true
  lblLt : ∀ i, st.clusters.getD i 0 < c + 1
  lblOnto : ∀ k, 1 ≤ k → k < c + 1 → ∃ i, i < data.length ∧
      st.clusters.getD i 0 = k ∧ isCore data eps mp i ∧
      st.visited.getD i false = true
  closure : ∀ p, isCore data eps mp p → st.visited.getD p false = true →
      ∀ q ∈ region_query data eps (data.getD p []),
        st.visited.getD q false = true ∨ q ∈ ws
  curOrClosed : ∀ p, isCore data eps mp p → st.visited.getD p false = true →
      st.clusters.getD p 0 = c ∨
        ∀ q ∈ region_query data eps (data.getD p []),
          st.visited.getD q false = true
  wsCore : ∀ j ∈ ws, st.visited.getD j false = true → isCore data eps mp j →
      st.clusters.getD j 0 = c
  soundT : b = true → ∀ i, st.clusters.getD i 0 ≠ 0 → covered data eps mp i
  soundF : b = false → ∀ i, st.clusters.getD i 0 ≠ 0 → isCore data eps mp i
  wsCov : b = true → ∀ j ∈ ws, covered data eps mp j
  compT : b = true → ∀ p, isCore data eps mp p → st.visited.getD p false = true →
      ∀ q ∈ region_query data eps (data.getD p []),
        st.clusters.getD q 0 ≠ 0 ∨ q ∈ ws
  compF : b = false → ∀ i, isCore data eps mp i → st.visited.getD i false = true →
      st.clusters.getD i 0 ≠ 0

theorem covered_of_mem {data : List Pt} {eps : ℚ} {mp : Nat} {p i : Nat}
    (hp : p < data.length) (hcore : isCore data eps mp p)
    (hi : i ∈ region_query data eps (data.getD p [])) : covered data eps mp i :=
  ⟨p, List.mem_range.2 hp, hcore, hi⟩

theorem mem_ws_merge {rest sub : List Nat} {q : Nat} :
    q ∈ sortDedupDesc (rest ++ sub) ↔ q ∈ rest ∨ q ∈ sub := by
  rw [mem_sortDedupDesc, List.mem_append]

theorem getD_set_c_of_eq (l : List Nat) (j p : Nat) {c : Nat}
    (h : l.getD p 0 = c) : (l.set j c).getD p 0 = c := by
  rcases getD_set_cases l j p c 0 with ⟨h1, _, _⟩ | h1
  · rw [h1]
  · rw [h1]; exact h

theorem getD_set_c_ne_zero (l : List Nat) (j p : Nat) {c : Nat} (hc : 1 ≤ c)
    (h : l.getD p 0 ≠ 0) : (l.set j c).getD p 0 ≠ 0 := by
  rcases getD_set_cases l j p c 0 with ⟨h1, _, _⟩ | h1
  · rw [h1]; omega
  · rw [h1]; exact h

/-- Popping an already-visited index with `borders = false` changes nothing
but the working set. -/
theorem EInv_pop_visited_f {data : List Pt} {eps : ℚ} {mp : Nat} {c j : Nat}
    {rest : List Nat} {st : DbscanState}
    (hv : st.visited.getD j true = true)
    (inv : EInv data eps mp false c (j :: rest) st) :
    EInv data eps mp false c rest st where
  lenV := inv.lenV
  lenC := inv.lenC
  cpos := inv.cpos
  lblVisited := inv.lblVisited
  lblLt := inv.lblLt
  lblOnto := inv.lblOnto
  closure := by
    intro p hc hp q hq
    rcases inv.closure p hc hp q hq with h | h
    · exact Or.inl h
    · rcases List.mem_cons.1 h with rfl | h
      · left
        have hqN : q < data.length := (mem_region_query.1 hq).1
        rw [getD_indep _ q false true (by rw [inv.lenV]; exact hqN), hv]
      · exact Or.inr h
  curOrClosed := inv.curOrClosed
  wsCore := fun j' hj' => inv.wsCore j' (List.mem_cons_of_mem j hj')
  soundT := inv.soundT
  soundF := inv.soundF
  wsCov := fun hb j' hj' => inv.wsCov hb j' (List.mem_cons_of_mem j hj')
  compT := fun hb => absurd hb (by simp)
  compF := inv.compF

/-- Popping an already-visited index with `borders = true` recolours it with
the current cluster id. -/
theorem EInv_pop_visited_t {data : List Pt} {eps : ℚ} {mp : Nat} {c j : Nat}
    {rest : List Nat} {st : DbscanState}
    (hv : st.visited.getD j true = true)
    (inv : EInv data eps mp true c (j :: rest) st) :
    EInv data eps mp true c rest ⟨st.visited, st.clusters.set j c⟩ where
  lenV := inv.lenV
  lenC := by simpa [List.length_set] using inv.lenC
  cpos := inv.cpos
  lblVisited := by
    intro i hi
    rcases getD_set_cases st.clusters j i c 0 with ⟨h1, hji, hlen⟩ | h1
    · rw [← hji] at hlen ⊢
      rw [getD_indep _ j false true (by rw [inv.lenV, ← inv.lenC]; exact hlen), hv]
    · exact inv.lblVisited i (by rw [h1] at hi; exact hi)
  lblLt := by
    intro i
    rcases getD_set_cases st.clusters j i c 0 with ⟨h1, _, _⟩ | h1
    · rw [h1]; omega
    · rw [h1]; exact inv.lblLt i
  lblOnto := by
    intro k hk1 hk2
    obtain ⟨i, hiN, hik, hicore, hiv⟩ := inv.lblOnto k hk1 hk2
    refine ⟨i, hiN, ?_, hicore, hiv⟩
    by_cases hij : j = i
    · have hic : st.clusters.getD i 0 = c :=
        inv.wsCore i (by rw [← hij]; exact List.mem_cons_self j rest) hiv hicore
      have hkc : k = c := by rw [← hik, hic]
      subst hkc
      exact getD_set_c_of_eq _ _ _ hic
    · rw [getD_set_ne _ _ _ _ _ hij]; exact hik
  closure := by
    intro p hc hp q hq
    rcases inv.closure p hc hp q hq with h | h
    · exact Or.inl h
    · rcases List.mem_cons.1 h with rfl | h
      · left
        have hqN : q < data.length := (mem_region_query.1 hq).1
        rw [getD_indep _ q false true (by rw [inv.lenV]; exact hqN), hv]
      · exact Or.inr h
  curOrClosed := by
    intro p hc hp
    rcases inv.curOrClosed p hc hp with h | h
    · exact Or.inl (getD_set_c_of_eq _ _ _ h)
    · exact Or.inr h
  wsCore := by
    intro j' hj' hv' hc'
    exact getD_set_c_of_eq _ _ _
      (inv.wsCore j' (List.mem_cons_of_mem j hj') hv' hc')
  soundT := by
    intro hb i hi
    rcases getD_set_cases st.clusters j i c 0 with ⟨_, hji, _⟩ | h1
    · exact inv.wsCov hb i (by rw [← hji]; exact List.mem_cons_self j rest)
    · exact inv.soundT hb i (by rw [h1] at hi; exact hi)
  soundF := fun hb => absurd hb (by simp)
  wsCov := fun hb j' hj' => inv.wsCov hb j' (List.mem_cons_of_mem j hj')
  compT := by
    intro hb p hc hp q hq
    rcases inv.compT hb p hc hp q hq with h | h
    · exact Or.inl (getD_set_c_ne_zero _ _ _ inv.cpos h)
    · rcases List.mem_cons.1 h with rfl | h
      · left
        have hqN : q < data.length := (mem_region_query.1 hq).1
        rw [getD_set_self _ _ _ _ (by rw [inv.lenC]; exact hqN)]
        have := inv.cpos; omega
      · exact Or.inr h
  compF := fun hb => absurd hb (by simp)

/-- Popping an unvisited core point `j` (either borders mode): `j` is
marked visited, coloured with the current cluster id, and its
neighbourhood is merged into the working set. -/
theorem EInv_pop_core {data : List Pt} {eps : ℚ} {mp : Nat} {b : Bool} {c j : Nat}
    {rest : List Nat} {st : DbscanState}
    (hv : st.visited.getD j true = false)
    (hcore : mp ≤ (region_query data eps (data.getD j [])).length)
    (inv : EInv data eps mp b c (j :: rest) st) :
    EInv data eps mp b c (sortDedupDesc (rest ++ region_query data eps (data.getD j [])))
      ⟨st.visited.set j true, st.clusters.set j c⟩ := by
  have hjV : j < st.visited.length := lt_length_of_getD_ne _ j true (by rw [hv]; simp)
  have hjN : j < data.length := by rw [← inv.lenV]; exact hjV
  have hjC : j < st.clusters.length := by rw [inv.lenC]; exact hjN
  have hunv : st.visited.getD j false = false := unvisited_getD_false hv
  have hjcore : isCore data eps mp j := hcore
  refine ⟨?_, ?_, inv.cpos, ?_, ?_, ?_, ?_, ?_, ?_, ?_, ?_, ?_, ?_, ?_⟩
  · simpa [List.length_set] using inv.lenV
  · simpa [List.length_set] using inv.lenC
  · -- lblVisited
    intro i hi
    rcases getD_set_cases st.clusters j i c 0 with ⟨_, hji, _⟩ | h1
    · rw [← hji]; exact getD_set_self _ _ _ _ hjV
    · exact visited_set_mono _ j (inv.lblVisited i (by rw [h1] at hi; exact hi))
  · -- lblLt
    intro i
    rcases getD_set_cases st.clusters j i c 0 with ⟨h1, _, _⟩ | h1
    · rw [h1]; omega
    · rw [h1]; exact inv.lblLt i
  · -- lblOnto
    intro k hk1 hk2
    obtain ⟨i, hiN, hik, hicore, hiv⟩ := inv.lblOnto k hk1 hk2
    have hij : j ≠ i := by
      intro h; rw [h] at hunv; rw [hunv] at hiv; exact Bool.noConfusion hiv
    exact ⟨i, hiN, by rw [getD_set_ne _ _ _ _ _ hij]; exact hik, hicore,
      visited_set_mono _ j hiv⟩
  · -- closure
    intro p hpcore hpv q hq
    by_cases hpj : p = j
    · subst hpj
      exact Or.inr (mem_ws_merge.2 (Or.inr hq))
    · have hpv' : st.visited.getD p false = true := by
        rw [getD_set_ne _ _ _ _ _ (fun h => hpj h.symm)] at hpv; exact hpv
      rcases inv.closure p hpcore hpv' q hq with h | h
      · exact Or.inl (visited_set_mono _ j h)
      · rcases List.mem_cons.1 h with rfl | h
        · exact Or.inl (getD_set_self _ _ _ _ hjV)
        · exact Or.inr (mem_ws_merge.2 (Or.inl h))
  · -- curOrClosed
    intro p hpcore hpv
    by_cases hpj : p = j
    · subst hpj
      exact Or.inl (getD_set_self _ _ _ _ hjC)
    · have hpv' : st.visited.getD p false = true := by
        rw [getD_set_ne _ _ _ _ _ (fun h => hpj h.symm)] at hpv; exact hpv
      rcases inv.curOrClosed p hpcore hpv' with h | h
      · exact Or.inl (getD_set_c_of_eq _ _ _ h)
      · exact Or.inr (fun q hq => visited_set_mono _ j (h q hq))
  · -- wsCore
    intro j' hj' hv' hc'
    by_cases hj'j : j' = j
    · subst hj'j
      exact getD_set_self _ _ _ _ hjC
    · have hj'v : st.visited.getD j' false = true := by
        rw [getD_set_ne _ _ _ _ _ (fun h => hj'j h.symm)] at hv'; exact hv'
      have hj'N : j' < data.length := by
        rw [← inv.lenV]
        exact lt_length_of_getD_ne _ j' false (by rw [hj'v]; simp)
      rcases mem_ws_merge.1 hj' with hmem | hmem
      · rw [getD_set_ne _ _ _ _ _ (fun h => hj'j h.symm)]
        exact inv.wsCore j' (List.mem_cons_of_mem j hmem) hj'v hc'
      · rcases inv.curOrClosed j' hc' hj'v with h | h
        · exact getD_set_c_of_eq _ _ _ h
        · exfalso
          have hjmem : j ∈ region_query data eps (data.getD j' []) :=
            (region_query_symm hjN hj'N).1 hmem
          have := h j hjmem
          rw [hunv] at this
          exact Bool.noConfusion this
  · -- soundT
    intro hb i hi
    rcases getD_set_cases st.clusters j i c 0 with ⟨_, hji, _⟩ | h1
    · rw [← hji]
      exact covered_of_mem hjN hjcore (self_mem_region_query hjN)
    · exact inv.soundT hb i (by rw [h1] at hi; exact hi)
  · -- soundF
    intro hb i hi
    rcases getD_set_cases st.clusters j i c 0 with ⟨_, hji, _⟩ | h1
    · rw [← hji]; exact hjcore
    · exact inv.soundF hb i (by rw [h1] at hi; exact hi)
  · -- wsCov
    intro hb j' hj'
    rcases mem_ws_merge.1 hj' with hmem | hmem
    · exact inv.wsCov hb j' (List.mem_cons_of_mem j hmem)
    · exact covered_of_mem hjN hjcore hmem
  · -- compT
    intro hb p hpcore hpv q hq
    by_cases hpj : p = j
    · subst hpj
      exact Or.inr (mem_ws_merge.2 (Or.inr hq))
    · have hpv' : st.visited.getD p false = true := by
        rw [getD_set_ne _ _ _ _ _ (fun h => hpj h.symm)] at hpv; exact hpv
      rcases inv.compT hb p hpcore hpv' q hq with h | h
      · exact Or.inl (getD_set_c_ne_zero _ _ _ inv.cpos h)
      · rcases List.mem_cons.1 h with rfl | h
        · left
          rw [getD_set_self _ _ _ _ hjC]
          have := inv.cpos; omega
        · exact Or.inr (mem_ws_merge.2 (Or.inl h))
  · -- compF
    intro hb i hicore hiv
    by_cases hij : i = j
    · subst hij
      rw [getD_set_self _ _ _ _ hjC]
      have := inv.cpos; omega
    · have hiv' : st.visited.getD i false = true := by
        rw [getD_set_ne _ _ _ _ _ (fun h => hij h.symm)] at hiv; exact hiv
      exact getD_set_c_ne_zero _ _ _ inv.cpos (inv.compF hb i hicore hiv')

/-- Popping an unvisited non-core point with `borders = false`: it is only
marked visited (a border point keeps label 0 in this mode). -/
theorem EInv_pop_noncore_f {data : List Pt} {eps : ℚ} {mp : Nat} {c j : Nat}
    {rest : List Nat} {st : DbscanState}
    (hv : st.visited.getD j true = false)
    (hnc : ¬ mp ≤ (region_query data eps (data.getD j [])).length)
    (inv : EInv data eps mp false c (j :: rest) st) :
    EInv data eps mp false c rest ⟨st.visited.set j true, st.clusters⟩ := by
  have hjV : j < st.visited.length := lt_length_of_getD_ne _ j true (by rw [hv]; simp)
  have hunv : st.visited.getD j false = false := unvisited_getD_false hv
  have hjnc : ¬ isCore data eps mp j := hnc
  refine ⟨?_, inv.lenC, inv.cpos, ?_, inv.lblLt, ?_, ?_, ?_, ?_, inv.soundT,
    inv.soundF, ?_, fun hb => absurd hb (by simp), ?_⟩
  · simpa [List.length_set] using inv.lenV
  · exact fun i hi => visited_set_mono _ j (inv.lblVisited i hi)
  · intro k hk1 hk2
    obtain ⟨i, hiN, hik, hicore, hiv⟩ := inv.lblOnto k hk1 hk2
    exact ⟨i, hiN, hik, hicore, visited_set_mono _ j hiv⟩
  · -- closure
    intro p hpcore hpv q hq
    by_cases hpj : p = j
    · exact absurd (hpj ▸ hpcore) hjnc
    · have hpv' : st.visited.getD p false = true := by
        rw [getD_set_ne _ _ _ _ _ (fun h => hpj h.symm)] at hpv; exact hpv
      rcases inv.closure p hpcore hpv' q hq with h | h
      · exact Or.inl (visited_set_mono _ j h)
      · rcases List.mem_cons.1 h with rfl | h
        · exact Or.inl (getD_set_self _ _ _ _ hjV)
        · exact Or.inr h
  · -- curOrClosed
    intro p hpcore hpv
    by_cases hpj : p = j
    · exact absurd (hpj ▸ hpcore) hjnc
    · have hpv' : st.visited.getD p false = true := by
        rw [getD_set_ne _ _ _ _ _ (fun h => hpj h.symm)] at hpv; exact hpv
      rcases inv.curOrClosed p hpcore hpv' with h | h
      · exact Or.inl h
      · exact Or.inr (fun q hq => visited_set_mono _ j (h q hq))
  · -- wsCore
    intro j' hj' hv' hc'
    by_cases hj'j : j' = j
    · exact absurd (hj'j ▸ hc') hjnc
    · have hj'v : st.visited.getD j' false = true := by
        rw [getD_set_ne _ _ _ _ _ (fun h => hj'j h.symm)] at hv'; exact hv'
      exact inv.wsCore j' (List.mem_cons_of_mem j hj') hj'v hc'
  · exact fun hb j' hj' => inv.wsCov hb j' (List.mem_cons_of_mem j hj')
  · -- compF
    intro hb i hicore hiv
    by_cases hij : i = j
    · exact absurd (hij ▸ hicore) hjnc
    · have hiv' : st.visited.getD i false = true := by
        rw [getD_set_ne _ _ _ _ _ (fun h => hij h.symm)] at hiv; exact hiv
      exact inv.compF hb i hicore hiv'

/-- Popping an unvisited non-core point with `borders = true`: it is marked
visited and border-coloured with the current cluster id. -/
theorem EInv_pop_noncore_t {data : List Pt} {eps : ℚ} {mp : Nat} {c j : Nat}
    {rest : List Nat} {st : DbscanState}
    (hv : st.visited.getD j true = false)
    (hnc : ¬ mp ≤ (region_query data eps (data.getD j [])).length)
    (inv : EInv data eps mp true c (j :: rest) st) :
    EInv data eps mp true c rest ⟨st.visited.set j true, st.clusters.set j c⟩ := by
  have hjV : j < st.visited.length := lt_length_of_getD_ne _ j true (by rw [hv]; simp)
  have hjC : j < st.clusters.length := by rw [inv.lenC, ← inv.lenV]; exact hjV
  have hunv : st.visited.getD j false = false := unvisited_getD_false hv
  have hjnc : ¬ isCore data eps mp j := hnc
  refine ⟨?_, ?_, inv.cpos, ?_, ?_, ?_, ?_, ?_, ?_, ?_, fun hb => absurd hb (by simp),
    ?_, ?_, fun hb => absurd hb (by simp)⟩
  · simpa [List.length_set] using inv.lenV
  · simpa [List.length_set] using inv.lenC
  · -- lblVisited
    intro i hi
    rcases getD_set_cases st.clusters j i c 0 with ⟨_, hji, _⟩ | h1
    · rw [← hji]; exact getD_set_self _ _ _ _ hjV
    · exact visited_set_mono _ j (inv.lblVisited i (by rw [h1] at hi; exact hi))
  · -- lblLt
    intro i
    rcases getD_set_cases st.clusters j i c 0 with ⟨h1, _, _⟩ | h1
    · rw [h1]; omega
    · rw [h1]; exact inv.lblLt i
  · -- lblOnto
    intro k hk1 hk2
    obtain ⟨i, hiN, hik, hicore, hiv⟩ := inv.lblOnto k hk1 hk2
    have hij : j ≠ i := by
      intro h; rw [h] at hunv; rw [hunv] at hiv; exact Bool.noConfusion hiv
    exact ⟨i, hiN, by rw [getD_set_ne _ _ _ _ _ hij]; exact hik, hicore,
      visited_set_mono _ j hiv⟩
  · -- closure
    intro p hpcore hpv q hq
    by_cases hpj : p = j
    · exact absurd (hpj ▸ hpcore) hjnc
    · have hpv' : st.visited.getD p false = true := by
        rw [getD_set_ne _ _ _ _ _ (fun h => hpj h.symm)] at hpv; exact hpv
      rcases inv.closure p hpcore hpv' q hq with h | h
      · exact Or.inl (visited_set_mono _ j h)
      · rcases List.mem_cons.1 h with rfl | h
        · exact Or.inl (getD_set_self _ _ _ _ hjV)
        · exact Or.inr h
  · -- curOrClosed
    intro p hpcore hpv
    by_cases hpj : p = j
    · exact absurd (hpj ▸ hpcore) hjnc
    · have hpv' : st.visited.getD p false = true := by
        rw [getD_set_ne _ _ _ _ _ (fun h => hpj h.symm)] at hpv; exact hpv
      rcases inv.curOrClosed p hpcore hpv' with h | h
      · exact Or.inl (getD_set_c_of_eq _ _ _ h)
      · exact Or.inr (fun q hq => visited_set_mono _ j (h q hq))
  · -- wsCore
    intro j' hj' hv' hc'
    by_cases hj'j : j' = j
    · exact absurd (hj'j ▸ hc') hjnc
    · have hj'v : st.visited.getD j' false = true := by
        rw [getD_set_ne _ _ _ _ _ (fun h => hj'j h.symm)] at hv'; exact hv'
      exact getD_set_c_of_eq _ _ _
        (inv.wsCore j' (List.mem_cons_of_mem j hj') hj'v hc')
  · -- soundT
    intro hb i hi
    rcases getD_set_cases st.clusters j i c 0 with ⟨_, hji, _⟩ | h1
    · exact inv.wsCov hb i (by rw [← hji]; exact List.mem_cons_self j rest)
    · exact inv.soundT hb i (by rw [h1] at hi; exact hi)
  · exact fun hb j' hj' => inv.wsCov hb j' (List.mem_cons_of_mem j hj')
  · -- compT
    intro hb p hpcore hpv q hq
    by_cases hpj : p = j
    · exact absurd (hpj ▸ hpcore) hjnc
    · have hpv' : st.visited.getD p false = true := by
        rw [getD_set_ne _ _ _ _ _ (fun h => hpj h.symm)] at hpv; exact hpv
      rcases inv.compT hb p hpcore hpv' q hq with h | h
      · exact Or.inl (getD_set_c_ne_zero _ _ _ inv.cpos h)
      · rcases List.mem_cons.1 h with rfl | h
        · left
          have hqN : q < data.length := (mem_region_query.1 hq).1
          rw [getD_set_self _ _ _ _ hjC]
          have := inv.cpos; omega
        · exact Or.inr h

/-- Running the expansion loop to completion preserves the invariant and
drains the working set. -/
theorem expand_EInv (data : List Pt) (eps : ℚ) (mp : Nat) (b : Bool) (c : Nat) :
    ∀ (fuel : Nat) (ws : List Nat) (st st' : DbscanState),
      expand data eps mp b c fuel ws st = some st' →
      EInv data eps mp b c ws st → EInv data eps mp b c [] st' := by
  intro fuel
  induction fuel with
  | zero => intro ws st st' h; exact absurd h (by simp [expand])
  | succ fuel ih =>
    intro ws st st' h inv
    cases ws with
    | nil =>
      obtain rfl : st = st' := by simpa [expand] using h
      exact inv
    | cons j rest =>
      simp only [expand] at h
      by_cases hv : st.visited.getD j true = true
      · rw [if_pos hv] at h
        cases b
        · exact ih _ _ _ h (EInv_pop_visited_f hv inv)
        · exact ih _ _ _ h (EInv_pop_visited_t hv inv)
      · rw [if_neg hv] at h
        have hv' : st.visited.getD j true = false := by
          revert hv; cases st.visited.getD j true <;> simp
        by_cases hcore : mp ≤ (region_query data eps (data.getD j [])).length
        · rw [if_pos hcore] at h
          cases b
          · exact ih _ _ _ h (EInv_pop_core hv' hcore inv)
          · exact ih _ _ _ h (EInv_pop_core hv' hcore inv)
        · rw [if_neg hcore] at h
          cases b
          · exact ih _ _ _ h (EInv_pop_noncore_f hv' hcore inv)
          · exact ih _ _ _ h (EInv_pop_noncore_t hv' hcore inv)

/-- `expand` never clears a visited flag. -/
theorem expand_visited_mono (data : List Pt) (eps : ℚ) (mp : Nat) (b : Bool) (c : Nat) :
    ∀ (fuel : Nat) (ws : List Nat) (st st' : DbscanState),
      expand data eps mp b c fuel ws st = some st' →
      ∀ i, st.visited.getD i false = true → st'.visited.getD i false = true := by
  intro fuel
  induction fuel with
  | zero => intro ws st st' h; exact absurd h (by simp [expand])
  | succ fuel ih =>
    intro ws st st' h
    cases ws with
    | nil =>
      obtain rfl : st = st' := by simpa [expand] using h
      exact fun i hi => hi
    | cons j rest =>
      simp only [expand] at h
      by_cases hv : st.visited.getD j true = true
      · rw [if_pos hv] at h
        exact fun i hi => ih _ _ _ h i hi
      · rw [if_neg hv] at h
        by_cases hcore : mp ≤ (region_query data eps (data.getD j [])).length
        · rw [if_pos hcore] at h
          exact fun i hi => ih _ _ _ h i (visited_set_mono _ j hi)
        · rw [if_neg hcore] at h
          exact fun i hi => ih _ _ _ h i (visited_set_mono _ j hi)

/-! ## The outer-loop invariant -/

/-- `OInv data eps mp b c st` holds between iterations of the outer
`for row_idx in indices` loop of `Dbscan::new`, with `c` the next cluster
id to allocate: every expansion so far has run to completion, so every
visited core point has a fully visited neighbourhood. -/
structure OInv (data : List Pt) (eps : ℚ) (mp : Nat) (b : Bool) (c : Nat)
    (st : DbscanState) : Prop where
  lenV : st.visited.length = data.length
  lenC : st.clusters.length = data.length
  cpos : 1 ≤ c
  lblVisited : ∀ i, st.clusters.getD i 0 ≠ 0 → st.visited.getD i false = true
  lblLt : ∀ i, st.clusters.getD i 0 < c
  lblOnto : ∀ k, 1 ≤ k → k < c → ∃ i, i < data.length ∧
      st.clusters.getD i 0 = k ∧ isCore data eps mp i ∧
      st.visited.getD i false = true
  closure : ∀ p, isCore data eps mp p → st.visited.getD p false = true →
      ∀ q ∈ region_query data eps (data.getD p []),
        st.visited.getD q false = true
  soundT : b = true → ∀ i, st.clusters.getD i 0 ≠ 0 → covered data eps mp i
  soundF : b = false → ∀ i, st.clusters.getD i 0 ≠ 0 → isCore data eps mp i
  compT : b = true → ∀ p, isCore data eps mp p → st.visited.getD p false = true →
      ∀ q ∈ region_query data eps (data.getD p []), st.clusters.getD q 0 ≠ 0
  compF : b = false → ∀ i, isCore data eps mp i → st.visited.getD i false = true →
      st.clusters.getD i 0 ≠ 0

theorem getD_replicate_self {α : Type} (a : α) :
    ∀ (n i : Nat), (List.replicate n a).getD i a = a := by
  intro n
  induction n with
  | zero => intro i; cases i <;> rfl
  | succ n ih => intro i; cases i with
    | zero => rfl
    | succ i => simp only [List.replicate]; exact ih i

/-- The invariant holds at entry to the outer loop. -/
theorem OInv_init (data : List Pt) (eps : ℚ) (mp : Nat) (b : Bool) :
    OInv data eps mp b 1
      ⟨List.replicate data.length false, List.replicate data.length 0⟩ where
  lenV := List.length_replicate _ _
  lenC := List.length_replicate _ _
  cpos := le_refl 1
  lblVisited := fun i hi => absurd (getD_replicate_self 0 data.length i) hi
  lblLt := fun i => by rw [getD_replicate_self 0 data.length i]; omega
  lblOnto := fun k hk1 hk2 => absurd hk2 (by omega)
  closure := fun p _ hp => by
    rw [getD_replicate_self false data.length p] at hp
    exact Bool.noConfusion hp
  soundT := fun _ i hi => absurd (getD_replicate_self 0 data.length i) hi
  soundF := fun _ i hi => absurd (getD_replicate_self 0 data.length i) hi
  compT := fun _ p _ hp => by
    rw [getD_replicate_self false data.length p] at hp
    exact Bool.noConfusion hp
  compF := fun _ i _ hi => by
    rw [getD_replicate_self false data.length i] at hi
    exact Bool.noConfusion hi

/-- Seeding a new cluster at an unvisited core point `i` establishes the
expansion invariant for its initial working set. -/
theorem EInv_seed {data : List Pt} {eps : ℚ} {mp : Nat} {b : Bool} {c i : Nat}
    {st : DbscanState}
    (hv : st.visited.getD i true = false)
    (hcore : mp ≤ (sortDedupDesc (region_query data eps (data.getD i []))).length)
    (inv : OInv data eps mp b c st) :
    EInv data eps mp b c (sortDedupDesc (region_query data eps (data.getD i [])))
      ⟨st.visited.set i true, st.clusters.set i c⟩ := by
  have hiV : i < st.visited.length := lt_length_of_getD_ne _ i true (by rw [hv]; simp)
  have hiN : i < data.length := by rw [← inv.lenV]; exact hiV
  have hiC : i < st.clusters.length := by rw [inv.lenC]; exact hiN
  have hunv : st.visited.getD i false = false := unvisited_getD_false hv
  have hicore : isCore data eps mp i := (seed_check_iff_isCore data eps mp i).1 hcore
  refine ⟨?_, ?_, inv.cpos, ?_, ?_, ?_, ?_, ?_, ?_, ?_, ?_, ?_, ?_, ?_⟩
  · simpa [List.length_set] using inv.lenV
  · simpa [List.length_set] using inv.lenC
  · -- lblVisited
    intro i' hi'
    rcases getD_set_cases st.clusters i i' c 0 with ⟨_, hii', _⟩ | h1
    · rw [← hii']; exact getD_set_self _ _ _ _ hiV
    · exact visited_set_mono _ i (inv.lblVisited i' (by rw [h1] at hi'; exact hi'))
  · -- lblLt
    intro i'
    rcases getD_set_cases st.clusters i i' c 0 with ⟨h1, _, _⟩ | h1
    · rw [h1]; omega
    · rw [h1]; have := inv.lblLt i'; omega
  · -- lblOnto
    intro k hk1 hk2
    by_cases hkc : k = c
    · subst hkc
      exact ⟨i, hiN, getD_set_self _ _ _ _ hiC, hicore,
        getD_set_self _ _ _ _ hiV⟩
    · obtain ⟨i', hi'N, hik, hi'core, hi'v⟩ := inv.lblOnto k hk1 (by omega)
      have hii' : i ≠ i' := by
        intro h; rw [h] at hunv; rw [hunv] at hi'v; exact Bool.noConfusion hi'v
      exact ⟨i', hi'N, by rw [getD_set_ne _ _ _ _ _ hii']; exact hik, hi'core,
        visited_set_mono _ i hi'v⟩
  · -- closure
    intro p hpcore hpv q hq
    by_cases hpi : p = i
    · subst hpi
      exact Or.inr (mem_sortDedupDesc.2 hq)
    · have hpv' : st.visited.getD p false = true := by
        rw [getD_set_ne _ _ _ _ _ (fun h => hpi h.symm)] at hpv; exact hpv
      exact Or.inl (visited_set_mono _ i (inv.closure p hpcore hpv' q hq))
  · -- curOrClosed
    intro p hpcore hpv
    by_cases hpi : p = i
    · subst hpi
      exact Or.inl (getD_set_self _ _ _ _ hiC)
    · have hpv' : st.visited.getD p false = true := by
        rw [getD_set_ne _ _ _ _ _ (fun h => hpi h.symm)] at hpv; exact hpv
      exact Or.inr (fun q hq => visited_set_mono _ i (inv.closure p hpcore hpv' q hq))
  · -- wsCore
    intro j' hj' hv' hc'
    by_cases hj'i : j' = i
    · subst hj'i
      exact getD_set_self _ _ _ _ hiC
    · exfalso
      have hj'v : st.visited.getD j' false = true := by
        rw [getD_set_ne _ _ _ _ _ (fun h => hj'i h.symm)] at hv'; exact hv'
      have hj'N : j' < data.length := by
        rw [← inv.lenV]
        exact lt_length_of_getD_ne _ j' false (by rw [hj'v]; simp)
      have himem : i ∈ region_query data eps (data.getD j' []) :=
        (region_query_symm hiN hj'N).1 (mem_sortDedupDesc.1 hj')
      have := inv.closure j' hc' hj'v i himem
      rw [hunv] at this
      exact Bool.noConfusion this
  · -- soundT
    intro hb i' hi'
    rcases getD_set_cases st.clusters i i' c 0 with ⟨_, hii', _⟩ | h1
    · rw [← hii']
      exact covered_of_mem hiN hicore (self_mem_region_query hiN)
    · exact inv.soundT hb i' (by rw [h1] at hi'; exact hi')
  · -- soundF
    intro hb i' hi'
    rcases getD_set_cases st.clusters i i' c 0 with ⟨_, hii', _⟩ | h1
    · rw [← hii']; exact hicore
    · exact inv.soundF hb i' (by rw [h1] at hi'; exact hi')
  · -- wsCov
    intro hb j' hj'
    exact covered_of_mem hiN hicore (mem_sortDedupDesc.1 hj')
  · -- compT
    intro hb p hpcore hpv q hq
    by_cases hpi : p = i
    · subst hpi
      exact Or.inr (mem_sortDedupDesc.2 hq)
    · have hpv' : st.visited.getD p false = true := by
        rw [getD_set_ne _ _ _ _ _ (fun h => hpi h.symm)] at hpv; exact hpv
      exact Or.inl (getD_set_c_ne_zero _ _ _ inv.cpos
        (inv.compT hb p hpcore hpv' q hq))
  · -- compF
    intro hb i' hi'core hi'v
    by_cases hi'i : i' = i
    · subst hi'i
      rw [getD_set_self _ _ _ _ hiC]
      have := inv.cpos; omega
    · have hv' : st.visited.getD i' false = true := by
        rw [getD_set_ne _ _ _ _ _ (fun h => hi'i h.symm)] at hi'v; exact hi'v
      exact getD_set_c_ne_zero _ _ _ inv.cpos (inv.compF hb i' hi'core hv')

/-- When the expansion loop has drained its working set, the outer
invariant holds again with the counter advanced. -/
theorem OInv_of_EInv_nil {data : List Pt} {eps : ℚ} {mp : Nat} {b : Bool} {c : Nat}
    {st : DbscanState} (inv : EInv data eps mp b c [] st) :
    OInv data eps mp b (c + 1) st where
  lenV := inv.lenV
  lenC := inv.lenC
  cpos := by have := inv.cpos; omega
  lblVisited := inv.lblVisited
  lblLt := inv.lblLt
  lblOnto := inv.lblOnto
  closure := fun p hp hpv q hq => by
    rcases inv.closure p hp hpv q hq with h | h
    · exact h
    · exact absurd h (List.not_mem_nil q)
  soundT := inv.soundT
  soundF := inv.soundF
  compT := fun hb p hp hpv q hq => by
    rcases inv.compT hb p hp hpv q hq with h | h
    · exact h
    · exact absurd h (List.not_mem_nil q)
  compF := inv.compF

/-- Visiting an unvisited non-core point in the outer loop preserves the
outer invariant. -/
theorem OInv_nonseed {data : List Pt} {eps : ℚ} {mp : Nat} {b : Bool} {c i : Nat}
    {st : DbscanState}
    (_hv : st.visited.getD i true = false)
    (hnc : ¬ mp ≤ (sortDedupDesc (region_query data eps (data.getD i []))).length)
    (inv : OInv data eps mp b c st) :
    OInv data eps mp b c ⟨st.visited.set i true, st.clusters⟩ := by
  have hinc : ¬ isCore data eps mp i :=
    fun h => hnc ((seed_check_iff_isCore data eps mp i).2 h)
  refine ⟨?_, inv.lenC, inv.cpos, ?_, inv.lblLt, ?_, ?_, inv.soundT, inv.soundF,
    ?_, ?_⟩
  · simpa [List.length_set] using inv.lenV
  · exact fun i' hi' => visited_set_mono _ i (inv.lblVisited i' hi')
  · intro k hk1 hk2
    obtain ⟨i', hi'N, hik, hi'core, hi'v⟩ := inv.lblOnto k hk1 hk2
    exact ⟨i', hi'N, hik, hi'core, visited_set_mono _ i hi'v⟩
  · -- closure
    intro p hpcore hpv q hq
    by_cases hpi : p = i
    · exact absurd (hpi ▸ hpcore) hinc
    · have hpv' : st.visited.getD p false = true := by
        rw [getD_set_ne _ _ _ _ _ (fun h => hpi h.symm)] at hpv; exact hpv
      exact visited_set_mono _ i (inv.closure p hpcore hpv' q hq)
  · -- compT
    intro hb p hpcore hpv q hq
    by_cases hpi : p = i
    · exact absurd (hpi ▸ hpcore) hinc
    · have hpv' : st.visited.getD p false = true := by
        rw [getD_set_ne _ _ _ _ _ (fun h => hpi h.symm)] at hpv; exact hpv
      exact inv.compT hb p hpcore hpv' q hq
  · -- compF
    intro hb i' hi'core hi'v
    by_cases hi'i : i' = i
    · exact absurd (hi'i ▸ hi'core) hinc
    · have hv' : st.visited.getD i' false = true := by
        rw [getD_set_ne _ _ _ _ _ (fun h => hi'i h.symm)] at hi'v; exact hi'v
      exact inv.compF hb i' hi'core hv'

/-- Master induction over the outer loop: the invariant is preserved, the
visited set only grows, and every in-range index of the remaining
permutation suffix ends up visited. -/
theorem fitLoop_OInv (data : List Pt) (eps : ℚ) (mp : Nat) (b : Bool) :
    ∀ (perm : List Nat) (c : Nat) (st : DbscanState) (st' : DbscanState) (c' : Nat),
      fitLoop data eps mp b perm c st = some (st', c') →
      OInv data eps mp b c st →
      OInv data eps mp b c' st' ∧
        (∀ i, st.visited.getD i false = true → st'.visited.getD i false = true) ∧
        (∀ i ∈ perm, i < data.length → st'.visited.getD i false = true) := by
  intro perm
  induction perm with
  | nil =>
    intro c st st' c' h inv
    obtain ⟨rfl, rfl⟩ : st = st' ∧ c = c' := by
      simpa [fitLoop] using h
    exact ⟨inv, fun i hi => hi, fun i hi => absurd hi (List.not_mem_nil i)⟩
  | cons i rem ih =>
    intro c st st' c' h inv
    simp only [fitLoop] at h
    by_cases hv : st.visited.getD i true = true
    · rw [if_pos hv] at h
      obtain ⟨inv', hmono, hcov⟩ := ih c st st' c' h inv
      refine ⟨inv', hmono, ?_⟩
      intro i' hi' hiN
      rcases List.mem_cons.1 hi' with rfl | hi'
      · apply hmono
        rw [getD_indep _ i' false true (by rw [inv.lenV]; exact hiN), hv]
      · exact hcov i' hi' hiN
    · rw [if_neg hv] at h
      have hv' : st.visited.getD i true = false := by
        revert hv; cases st.visited.getD i true <;> simp
      have hiV : i < st.visited.length := lt_length_of_getD_ne _ i true (by rw [hv']; simp)
      by_cases hcore : mp ≤ (sortDedupDesc (region_query data eps (data.getD i []))).length
      · rw [if_pos hcore] at h
        rcases hexp : expand data eps mp b c (fuelFor data)
            (sortDedupDesc (region_query data eps (data.getD i [])))
            ⟨st.visited.set i true, st.clusters.set i c⟩ with _ | stE
        · rw [hexp] at h; exact absurd h (by simp)
        · rw [hexp] at h
          simp only at h
          have hEInv := expand_EInv data eps mp b c _ _ _ _ hexp
            (EInv_seed hv' hcore inv)
          obtain ⟨inv', hmono, hcov⟩ := ih (c + 1) stE st' c' h
            (OInv_of_EInv_nil hEInv)
          have hEmono := expand_visited_mono data eps mp b c _ _ _ _ hexp
          refine ⟨inv', ?_, ?_⟩
          · exact fun i' hi' => hmono i' (hEmono i' (visited_set_mono _ i hi'))
          · intro i' hi' hiN
            rcases List.mem_cons.1 hi' with rfl | hi'
            · exact hmono i' (hEmono i' (getD_set_self _ _ _ _ hiV))
            · exact hcov i' hi' hiN
      · rw [if_neg hcore] at h
        obtain ⟨inv', hmono, hcov⟩ := ih c _ st' c' h (OInv_nonseed hv' hcore inv)
        refine ⟨inv', ?_, ?_⟩
        · exact fun i' hi' => hmono i' (visited_set_mono _ i hi')
        · intro i' hi' hiN
          rcases List.mem_cons.1 hi' with rfl | hi'
          · exact hmono i' (getD_set_self _ _ _ _ hiV)
          · exact hcov i' hi' hiN

/-- The outer invariant, with every point visited, at the end of `fit` run
with any permutation of `0..N`. -/
theorem dbscan_fit_final (data : List Pt) (eps : ℚ) (mp : Nat) (b : Bool)
    (perm : List Nat) (st : DbscanState) (c' : Nat)
    (hperm : perm.Perm (List.range data.length))
    (h : dbscan_fit data eps mp b perm = some (st, c')) :
    OInv data eps mp b c' st ∧
      ∀ i, i < data.length → st.visited.getD i false = true := by
  obtain ⟨inv', _, hcov⟩ := fitLoop_OInv data eps mp b perm 1 _ st c' h
    (OInv_init data eps mp b)
  refine ⟨inv', fun i hiN => ?_⟩
  exact hcov i (hperm.mem_iff.2 (List.mem_range.2 hiN)) hiN

/-- Characterisation of the labelling for `borders = false`: a point gets a
non-zero label exactly when it is a core point. -/
theorem fit_label_iff_core (data : List Pt) (eps : ℚ) (mp : Nat)
    (perm : List Nat) (st : DbscanState) (c' : Nat)
    (hperm : perm.Perm (List.range data.length))
    (h : dbscan_fit data eps mp false perm = some (st, c'))
    (i : Nat) (hiN : i < data.length) :
    st.clusters.getD i 0 ≠ 0 ↔ isCore data eps mp i := by
  obtain ⟨inv, hall⟩ := dbscan_fit_final data eps mp false perm st c' hperm h
  constructor
  · exact inv.soundF rfl i
  · exact fun hcore => inv.compF rfl i hcore (hall i hiN)

/-- Characterisation of the labelling for `borders = true`: a point gets a
non-zero label exactly when it lies within `eps` of some core point. -/
theorem fit_label_iff_covered (data : List Pt) (eps : ℚ) (mp : Nat)
    (perm : List Nat) (st : DbscanState) (c' : Nat)
    (hperm : perm.Perm (List.range data.length))
    (h : dbscan_fit data eps mp true perm = some (st, c')) (i : Nat) :
    st.clusters.getD i 0 ≠ 0 ↔ covered data eps mp i := by
  obtain ⟨inv, hall⟩ := dbscan_fit_final data eps mp true perm st c' hperm h
  constructor
  · exact inv.soundT rfl i
  · rintro ⟨p, hpr, hpcore, hpmem⟩
    have hpN : p < data.length := List.mem_range.1 hpr
    exact inv.compT rfl p hpcore (hall p hpN) i hpmem

/-! ## Monotonicity in `eps` -/

theorem region_query_mono (data : List Pt) {e1 e2 : ℚ} (h0 : 0 ≤ e1) (h12 : e1 ≤ e2)
    (row : Pt) : ∀ j ∈ region_query data e1 row, j ∈ region_query data e2 row := by
  intro j hj
  rw [mem_region_query] at hj ⊢
  refine ⟨hj.1, le_trans hj.2 ?_⟩
  exact pow_le_pow_left₀ h0 h12 2

theorem isCore_mono (data : List Pt) {e1 e2 : ℚ} (h0 : 0 ≤ e1) (h12 : e1 ≤ e2)
    (mp i : Nat) (h : isCore data e1 mp i) : isCore data e2 mp i := by
  unfold isCore region_query at h ⊢
  refine le_trans h ?_
  refine List.Sublist.length_le ?_
  refine List.monotone_filter_right _ ?_
  intro a ha
  simp only [decide_eq_true_eq] at ha ⊢
  exact le_trans ha (pow_le_pow_left₀ h0 h12 2)

theorem covered_mono (data : List Pt) {e1 e2 : ℚ} (h0 : 0 ≤ e1) (h12 : e1 ≤ e2)
    (mp i : Nat) (h : covered data e1 mp i) : covered data e2 mp i := by
  obtain ⟨p, hpr, hpcore, hpmem⟩ := h
  exact ⟨p, hpr, isCore_mono data h0 h12 mp p hpcore,
    region_query_mono data h0 h12 _ i hpmem⟩

/-- Monotonicity of the non-noise set in `eps`: any point labelled with a
cluster id at radius `e1` is also labelled at any radius `e2 ≥ e1`, for
either setting of the borders flag and any two permutations. -/
theorem fit_nonzero_mono (data : List Pt) {e1 e2 : ℚ} (h0 : 0 ≤ e1) (h12 : e1 ≤ e2)
    (mp : Nat) (b : Bool) (perm1 perm2 : List Nat)
    (hp1 : perm1.Perm (List.range data.length))
    (hp2 : perm2.Perm (List.range data.length))
    (st1 st2 : DbscanState) (c1 c2 : Nat)
    (h1 : dbscan_fit data e1 mp b perm1 = some (st1, c1))
    (h2 : dbscan_fit data e2 mp b perm2 = some (st2, c2))
    (i : Nat) (hi : st1.clusters.getD i 0 ≠ 0) : st2.clusters.getD i 0 ≠ 0 := by
  have hiN : i < data.length := by
    have hlen : st1.clusters.length = data.length :=
      (dbscan_fit_final data e1 mp b perm1 st1 c1 hp1 h1).1.lenC
    have := lt_length_of_getD_ne st1.clusters i 0 hi
    omega
  cases b
  · rw [fit_label_iff_core data e1 mp perm1 st1 c1 hp1 h1 i hiN] at hi
    rw [fit_label_iff_core data e2 mp perm2 st2 c2 hp2 h2 i hiN]
    exact isCore_mono data h0 h12 mp i hi
  · rw [fit_label_iff_covered data e1 mp perm1 st1 c1 hp1 h1 i] at hi
    rw [fit_label_iff_covered data e2 mp perm2 st2 c2 hp2 h2 i]
    exact covered_mono data h0 h12 mp i hi

/-! ## Lemmas about `predict` -/

theorem lookupAll_isSome (clusters : List Nat) :
    ∀ (idxs : List Nat), (∀ j ∈ idxs, j < clusters.length) →
      ∃ labs, lookupAll clusters idxs = some labs := by
  intro idxs
  induction idxs with
  | nil => intro _; exact ⟨[], rfl⟩
  | cons j rest ih =>
    intro hbound
    obtain ⟨labs, hlabs⟩ := ih (fun j' hj' => hbound j' (List.mem_cons_of_mem j hj'))
    have hjlen : j < clusters.length := hbound j (List.mem_cons_self j rest)
    have hv : clusters.get? j = some (clusters.get ⟨j, hjlen⟩) :=
      List.get?_eq_get hjlen
    refine ⟨clusters.get ⟨j, hjlen⟩ :: labs, ?_⟩
    show (match clusters.get? j, lookupAll clusters rest with
      | some v, some l => some (v :: l) | _, _ => none) = _
    rw [hv, hlabs]

theorem lookupAll_mem (clusters : List Nat) :
    ∀ (idxs labs : List Nat), lookupAll clusters idxs = some labs →
      ∀ k, k ∈ labs ↔ ∃ j ∈ idxs, clusters.get? j = some k := by
  intro idxs
  induction idxs with
  | nil =>
    intro labs h k
    obtain rfl : ([] : List Nat) = labs := by simpa [lookupAll] using h
    simp
  | cons j rest ih =>
    intro labs h k
    rcases hj : clusters.get? j with _ | v
    · rw [show lookupAll clusters (j :: rest) = (match clusters.get? j,
        lookupAll clusters rest with
        | some v, some l => some (v :: l) | _, _ => none) from rfl, hj] at h
      exact absurd h (by simp)
    · rcases hrest : lookupAll clusters rest with _ | labs'
      · rw [show lookupAll clusters (j :: rest) = (match clusters.get? j,
          lookupAll clusters rest with
          | some v, some l => some (v :: l) | _, _ => none) from rfl, hj, hrest] at h
        exact absurd h (by simp)
      · rw [show lookupAll clusters (j :: rest) = (match clusters.get? j,
          lookupAll clusters rest with
          | some v, some l => some (v :: l) | _, _ => none) from rfl, hj, hrest] at h
        obtain rfl : v :: labs' = labs := by simpa using h
        constructor
        · intro hk
          rcases List.mem_cons.1 hk with rfl | hk
          · exact ⟨j, List.mem_cons_self j rest, hj⟩
          · obtain ⟨j', hj', hget⟩ := (ih labs' hrest k).1 hk
            exact ⟨j', List.mem_cons_of_mem j hj', hget⟩
        · rintro ⟨j', hj', hget⟩
          rcases List.mem_cons.1 hj' with rfl | hj'
          · rw [hj] at hget
            injection hget with h'
            rw [h']
            exact List.mem_cons_self k labs'
          · exact List.mem_cons_of_mem v ((ih labs' hrest k).2 ⟨j', hj', hget⟩)

theorem mem_uniqueFirstAux (k : Nat) :
    ∀ (l seen : List Nat), k ∈ uniqueFirstAux seen l ↔ k ∈ l ∧ k ∉ seen := by
  intro l
  induction l with
  | nil => intro seen; simp [uniqueFirstAux]
  | cons a l ih =>
    intro seen
    by_cases ha : a ∈ seen
    · rw [show uniqueFirstAux seen (a :: l) = uniqueFirstAux seen l from
        by simp [uniqueFirstAux, ha]]
      rw [ih seen]
      constructor
      · exact fun ⟨h1, h2⟩ => ⟨List.mem_cons_of_mem a h1, h2⟩
      · rintro ⟨h1, h2⟩
        rcases List.mem_cons.1 h1 with rfl | h1
        · exact absurd ha h2
        · exact ⟨h1, h2⟩
    · rw [show uniqueFirstAux seen (a :: l) = a :: uniqueFirstAux (a :: seen) l from
        by simp [uniqueFirstAux, ha]]
      constructor
      · intro hk
        rcases List.mem_cons.1 hk with rfl | hk
        · exact ⟨List.mem_cons_self k l, ha⟩
        · obtain ⟨h1, h2⟩ := (ih (a :: seen)).1 hk
          exact ⟨List.mem_cons_of_mem a h1,
            fun hs => h2 (List.mem_cons_of_mem a hs)⟩
      · rintro ⟨h1, h2⟩
        by_cases hka : k = a
        · rw [hka]; exact List.mem_cons_self a _
        · rcases List.mem_cons.1 h1 with rfl | h1
          · exact absurd rfl hka
          · exact List.mem_cons_of_mem a ((ih (a :: seen)).2
              ⟨h1, by simp [hka, h2]⟩)

theorem mem_uniqueFirst (k : Nat) (l : List Nat) : k ∈ uniqueFirst l ↔ k ∈ l := by
  rw [uniqueFirst, mem_uniqueFirstAux]
  simp

/-- Characterisation of one `predict` row, given that every neighbour index
is in bounds for the fitted labels: the result is the set of distinct
non-zero labels among the neighbours, or `[0]` if there is none. -/
theorem predict_row_spec (m : Dbscan) (data : List Pt) (row : Pt)
    (hbound : ∀ j ∈ region_query data m.eps row, j < m.clusters.length) :
    ∃ res, predict_row m data row = some res ∧
      ((∃ k, k ≠ 0 ∧ ∃ j ∈ region_query data m.eps row, m.clusters.getD j 0 = k) →
        (∀ k, k ∈ res ↔ k ≠ 0 ∧
          ∃ j ∈ region_query data m.eps row, m.clusters.getD j 0 = k)) ∧
      ((¬ ∃ k, k ≠ 0 ∧ ∃ j ∈ region_query data m.eps row, m.clusters.getD j 0 = k) →
        res = [0]) := by
  obtain ⟨labs, hlabs⟩ := lookupAll_isSome m.clusters _ hbound
  have hmem : ∀ k, k ∈ labs ↔
      ∃ j ∈ region_query data m.eps row, m.clusters.getD j 0 = k := by
    intro k
    rw [lookupAll_mem m.clusters _ labs hlabs k]
    constructor
    · rintro ⟨j, hj, hget⟩
      refine ⟨j, hj, ?_⟩
      have : m.clusters.getD j 0 = k := by
        rw [List.getD_eq_getD_get?, hget]; rfl
      exact this
    · rintro ⟨j, hj, hget⟩
      refine ⟨j, hj, ?_⟩
      have hjlen : j < m.clusters.length := hbound j hj
      rw [List.getD_eq_getD_get?] at hget
      rcases hget' : m.clusters.get? j with _ | v
      · exfalso
        rw [List.get?_eq_none] at hget'
        omega
      · rw [hget'] at hget
        simp only [Option.getD_some] at hget
        exact congrArg some hget
  have hmemnc : ∀ k, k ∈ (uniqueFirst labs).filter (fun c => 0 < c) ↔
      k ≠ 0 ∧ ∃ j ∈ region_query data m.eps row, m.clusters.getD j 0 = k := by
    intro k
    rw [List.mem_filter, mem_uniqueFirst, hmem k]
    simp only [decide_eq_true_eq]
    constructor
    · rintro ⟨h1, h2⟩; exact ⟨by omega, h1⟩
    · rintro ⟨h1, h2⟩; exact ⟨h2, by omega⟩
  refine ⟨_, by rw [predict_row, hlabs], ?_, ?_⟩
  · intro hne k
    rw [if_pos ?_]
    · exact hmemnc k
    · obtain ⟨k0, hk0, hk0m⟩ := hne
      have : k0 ∈ (uniqueFirst labs).filter (fun c => 0 < c) :=
        (hmemnc k0).2 ⟨hk0, hk0m⟩
      have := List.length_pos.2 (List.ne_nil_of_mem this)
      omega
  · intro hall
    rw [if_neg ?_]
    · intro hpos
      have : (uniqueFirst labs).filter (fun c => 0 < c) ≠ [] := by
        intro h0; rw [h0] at hpos; simp at hpos
      obtain ⟨k0, hk0⟩ := List.exists_mem_of_ne_nil _ this
      exact hall ⟨k0, ((hmemnc k0).1 hk0).1, ((hmemnc k0).1 hk0).2⟩

/-- `Dbscan::predict` maps `predict_row` over the new points, in order. -/
theorem predict_spec (m : Dbscan) (data : List Pt) :
    ∀ (rows : List Pt) (res : List (List Nat)),
      m.predict data rows = some res →
      res.length = rows.length ∧
        ∀ k, k < rows.length →
          predict_row m data (rows.getD k []) = some (res.getD k []) := by
  intro rows
  induction rows with
  | nil =>
    intro res h
    obtain rfl : ([] : List (List Nat)) = res := by simpa [Dbscan.predict] using h
    exact ⟨rfl, fun k hk => absurd hk (by simp)⟩
  | cons row rows ih =>
    intro res h
    rcases hrow : predict_row m data row with _ | r
    · rw [show m.predict data (row :: rows) = (match predict_row m data row,
        m.predict data rows with
        | some r, some rs => some (r :: rs) | _, _ => none) from rfl, hrow] at h
      exact absurd h (by simp)
    · rcases hrows : m.predict data rows with _ | rs
      · rw [show m.predict data (row :: rows) = (match predict_row m data row,
          m.predict data rows with
          | some r, some rs => some (r :: rs) | _, _ => none) from rfl,
          hrow, hrows] at h
        exact absurd h (by simp)
      · rw [show m.predict data (row :: rows) = (match predict_row m data row,
          m.predict data rows with
          | some r, some rs => some (r :: rs) | _, _ => none) from rfl,
          hrow, hrows] at h
        obtain rfl : r :: rs = res := by simpa using h
        obtain ⟨hlen, hk⟩ := ih rs hrows
        refine ⟨by simp [hlen], ?_⟩
        intro k hkl
        cases k with
        | zero => simpa using hrow
        | succ k => simpa using hk k (by simpa using hkl)

/-- `predict` is total when the reference point set has exactly as many
rows as the fitted labelling (every stored index is then in bounds). -/
theorem predict_isSome (m : Dbscan) (data : List Pt)
    (hlen : m.clusters.length = data.length) :
    ∀ (rows : List Pt), ∃ res, m.predict data rows = some res := by
  intro rows
  induction rows with
  | nil => exact ⟨[], rfl⟩
  | cons row rows ih =>
    obtain ⟨rs, hrs⟩ := ih
    have hbound : ∀ j ∈ region_query data m.eps row, j < m.clusters.length := by
      intro j hj
      rw [hlen]
      exact (mem_region_query.1 hj).1
    obtain ⟨r, hr, _, _⟩ := predict_row_spec m data row hbound
    refine ⟨r :: rs, ?_⟩
    show (match predict_row m data row, m.predict data rows with
      | some r, some rs => some (r :: rs) | _, _ => none) = _
    rw [hr, hrs]

/-! ## The concrete data sets of the repository's tests -/

/-- `test_border_points`' 1-D data: `[1.55, 2.0, 2.1, 2.2, 2.65]`. -/
def data5 : List Pt := [[31/20], [2], [21/10], [11/5], [53/20]]

/-- `test_clusters`' 2-D data: four points near `(1,2)`, two near `(-2,3)`,
and `(-1,-2)`, `(-2,-1)`. -/
def data8 : List Pt :=
  [[1, 2], [11/10, 11/5], [9/10, 19/10], [1, 21/10],
   [-2, 3], [-11/5, 31/10], [-1, -2], [-2, -1]]

/-! ## Symbolic execution of `fit` on `data8`

On `data8` with `eps = 0.5`, `min_points = 2` the neighbourhood structure
is three mutually isolated blocks (`{0,1,2,3}`, `{4,5}` are cliques, `6`
and `7` are isolated points), so each outer-loop step is one of a fixed
set of transitions, each provable by reduction.  Group membership flags:
`vA` for points `0-3`, `vB` for `4-5`. -/

unseal Rat.add Rat.sub Rat.mul Rat.inv in
theorem fit8_seed0 (b : Bool) (rem : List Nat) (c : Nat) (v4 v5 v6 v7 : Bool)
    (x0 x1 x2 x3 x4 x5 x6 x7 : Nat) :
    fitLoop data8 (1/2) 2 b (0 :: rem) c
      ⟨[false, false, false, false, v4, v5, v6, v7],
       [x0, x1, x2, x3, x4, x5, x6, x7]⟩ =
    fitLoop data8 (1/2) 2 b rem (c + 1)
      ⟨[true, true, true, true, v4, v5, v6, v7],
       [c, c, c, c, x4, x5, x6, x7]⟩ := by
  cases b <;> rfl

unseal Rat.add Rat.sub Rat.mul Rat.inv in
theorem fit8_seed1 (b : Bool) (rem : List Nat) (c : Nat) (v4 v5 v6 v7 : Bool)
    (x0 x1 x2 x3 x4 x5 x6 x7 : Nat) :
    fitLoop data8 (1/2) 2 b (1 :: rem) c
      ⟨[false, false, false, false, v4, v5, v6, v7],
       [x0, x1, x2, x3, x4, x5, x6, x7]⟩ =
    fitLoop data8 (1/2) 2 b rem (c + 1)
      ⟨[true, true, true, true, v4, v5, v6, v7],
       [c, c, c, c, x4, x5, x6, x7]⟩ := by
  cases b <;> rfl

unseal Rat.add Rat.sub Rat.mul Rat.inv in
theorem fit8_seed2 (b : Bool) (rem : List Nat) (c : Nat) (v4 v5 v6 v7 : Bool)
    (x0 x1 x2 x3 x4 x5 x6 x7 : Nat) :
    fitLoop data8 (1/2) 2 b (2 :: rem) c
      ⟨[false, false, false, false, v4, v5, v6, v7],
       [x0, x1, x2, x3, x4, x5, x6, x7]⟩ =
    fitLoop data8 (1/2) 2 b rem (c + 1)
      ⟨[true, true, true, true, v4, v5, v6, v7],
       [c, c, c, c, x4, x5, x6, x7]⟩ := by
  cases b <;> rfl

unseal Rat.add Rat.sub Rat.mul Rat.inv in
theorem fit8_seed3 (b : Bool) (rem : List Nat) (c : Nat) (v4 v5 v6 v7 : Bool)
    (x0 x1 x2 x3 x4 x5 x6 x7 : Nat) :
    fitLoop data8 (1/2) 2 b (3 :: rem) c
      ⟨[false, false, false, false, v4, v5, v6, v7],
       [x0, x1, x2, x3, x4, x5, x6, x7]⟩ =
    fitLoop data8 (1/2) 2 b rem (c + 1)
      ⟨[true, true, true, true, v4, v5, v6, v7],
       [c, c, c, c, x4, x5, x6, x7]⟩ := by
  cases b <;> rfl

unseal Rat.add Rat.sub Rat.mul Rat.inv in
theorem fit8_seed4 (b : Bool) (rem : List Nat) (c : Nat) (vA v6 v7 : Bool)
    (x0 x1 x2 x3 x4 x5 x6 x7 : Nat) :
    fitLoop data8 (1/2) 2 b (4 :: rem) c
      ⟨[vA, vA, vA, vA, false, false, v6, v7],
       [x0, x1, x2, x3, x4, x5, x6, x7]⟩ =
    fitLoop data8 (1/2) 2 b rem (c + 1)
      ⟨[vA, vA, vA, vA, true, true, v6, v7],
       [x0, x1, x2, x3, c, c, x6, x7]⟩ := by
  cases b <;> rfl

unseal Rat.add Rat.sub Rat.mul Rat.inv in
theorem fit8_seed5 (b : Bool) (rem : List Nat) (c : Nat) (vA v6 v7 : Bool)
    (x0 x1 x2 x3 x4 x5 x6 x7 : Nat) :
    fitLoop data8 (1/2) 2 b (5 :: rem) c
      ⟨[vA, vA, vA, vA, false, false, v6, v7],
       [x0, x1, x2, x3, x4, x5, x6, x7]⟩ =
    fitLoop data8 (1/2) 2 b rem (c + 1)
      ⟨[vA, vA, vA, vA, true, true, v6, v7],
       [x0, x1, x2, x3, c, c, x6, x7]⟩ := by
  cases b <;> rfl

unseal Rat.add Rat.sub Rat.mul Rat.inv in
theorem fit8_visit6 (b : Bool) (rem : List Nat) (c : Nat) (vA vB v7 : Bool)
    (cl : List Nat) :
    fitLoop data8 (1/2) 2 b (6 :: rem) c
      ⟨[vA, vA, vA, vA, vB, vB, false, v7], cl⟩ =
    fitLoop data8 (1/2) 2 b rem c
      ⟨[vA, vA, vA, vA, vB, vB, true, v7], cl⟩ := by
  rfl

unseal Rat.add Rat.sub Rat.mul Rat.inv in
theorem fit8_visit7 (b : Bool) (rem : List Nat) (c : Nat) (vA vB v6 : Bool)
    (cl : List Nat) :
    fitLoop data8 (1/2) 2 b (7 :: rem) c
      ⟨[vA, vA, vA, vA, vB, vB, v6, false], cl⟩ =
    fitLoop data8 (1/2) 2 b rem c
      ⟨[vA, vA, vA, vA, vB, vB, v6, true], cl⟩ := by
  rfl

theorem fit8_skip0 (b : Bool) (rem : List Nat) (c : Nat) (vB v6 v7 : Bool)
    (cl : List Nat) :
    fitLoop data8 (1/2) 2 b (0 :: rem) c
      ⟨[true, true, true, true, vB, vB, v6, v7], cl⟩ =
    fitLoop data8 (1/2) 2 b rem c
      ⟨[true, true, true, true, vB, vB, v6, v7], cl⟩ := rfl

theorem fit8_skip1 (b : Bool) (rem : List Nat) (c : Nat) (vB v6 v7 : Bool)
    (cl : List Nat) :
    fitLoop data8 (1/2) 2 b (1 :: rem) c
      ⟨[true, true, true, true, vB, vB, v6, v7], cl⟩ =
    fitLoop data8 (1/2) 2 b rem c
      ⟨[true, true, true, true, vB, vB, v6, v7], cl⟩ := rfl

theorem fit8_skip2 (b : Bool) (rem : List Nat) (c : Nat) (vB v6 v7 : Bool)
    (cl : List Nat) :
    fitLoop data8 (1/2) 2 b (2 :: rem) c
      ⟨[true, true, true, true, vB, vB, v6, v7], cl⟩ =
    fitLoop data8 (1/2) 2 b rem c
      ⟨[true, true, true, true, vB, vB, v6, v7], cl⟩ := rfl

theorem fit8_skip3 (b : Bool) (rem : List Nat) (c : Nat) (vB v6 v7 : Bool)
    (cl : List Nat) :
    fitLoop data8 (1/2) 2 b (3 :: rem) c
      ⟨[true, true, true, true, vB, vB, v6, v7], cl⟩ =
    fitLoop data8 (1/2) 2 b rem c
      ⟨[true, true, true, true, vB, vB, v6, v7], cl⟩ := rfl

theorem fit8_skip4 (b : Bool) (rem : List Nat) (c : Nat) (vA v6 v7 : Bool)
    (cl : List Nat) :
    fitLoop data8 (1/2) 2 b (4 :: rem) c
      ⟨[vA, vA, vA, vA, true, true, v6, v7], cl⟩ =
    fitLoop data8 (1/2) 2 b rem c
      ⟨[vA, vA, vA, vA, true, true, v6, v7], cl⟩ := rfl

theorem fit8_skip5 (b : Bool) (rem : List Nat) (c : Nat) (vA v6 v7 : Bool)
    (cl : List Nat) :
    fitLoop data8 (1/2) 2 b (5 :: rem) c
      ⟨[vA, vA, vA, vA, true, true, v6, v7], cl⟩ =
    fitLoop data8 (1/2) 2 b rem c
      ⟨[vA, vA, vA, vA, true, true, v6, v7], cl⟩ := rfl

theorem fit8_skip6 (b : Bool) (rem : List Nat) (c : Nat) (vA vB v7 : Bool)
    (cl : List Nat) :
    fitLoop data8 (1/2) 2 b (6 :: rem) c
      ⟨[vA, vA, vA, vA, vB, vB, true, v7], cl⟩ =
    fitLoop data8 (1/2) 2 b rem c
      ⟨[vA, vA, vA, vA, vB, vB, true, v7], cl⟩ := rfl

theorem fit8_skip7 (b : Bool) (rem : List Nat) (c : Nat) (vA vB v6 : Bool)
    (cl : List Nat) :
    fitLoop data8 (1/2) 2 b (7 :: rem) c
      ⟨[vA, vA, vA, vA, vB, vB, v6, true], cl⟩ =
    fitLoop data8 (1/2) 2 b rem c
      ⟨[vA, vA, vA, vA, vB, vB, v6, true], cl⟩ := rfl

/-- Outer-loop invariant for `fit` on `data8`: each of the two dense groups
is either untouched or fully clustered with its own label, the two isolated
points never receive a label, and labels of fully clustered groups are
distinct and below the counter. -/
theorem fit8_loop (b : Bool) :
    ∀ (rem : List Nat) (c : Nat) (vA vB v6 v7 : Bool) (a d : Nat),
      (∀ i ∈ rem, i < 8) →
      1 ≤ c →
      (vA = false → a = 0) →
      (vA = true → 1 ≤ a ∧ a < c) →
      (vB = false → d = 0) →
      (vB = true → 1 ≤ d ∧ d < c) →
      (vA = true → vB = true → a ≠ d) →
      (vA = false → ∃ i ∈ rem, i < 4) →
      (vB = false → ∃ i ∈ rem, 4 ≤ i ∧ i < 6) →
      ∃ st' c', fitLoop data8 (1/2) 2 b rem c
          ⟨[vA, vA, vA, vA, vB, vB, v6, v7], [a, a, a, a, d, d, 0, 0]⟩ =
            some (st', c') ∧
        ∃ a' d', st'.clusters = [a', a', a', a', d', d', 0, 0] ∧
          1 ≤ a' ∧ 1 ≤ d' ∧ a' ≠ d' := by
  intro rem
  induction rem with
  | nil =>
    intro c vA vB v6 v7 a d hmem hc hA0 hA1 hB0 hB1 hAB hcovA hcovB
    cases vA
    · obtain ⟨i, hi, _⟩ := hcovA rfl
      exact absurd hi (List.not_mem_nil i)
    · cases vB
      · obtain ⟨i, hi, _⟩ := hcovB rfl
        exact absurd hi (List.not_mem_nil i)
      · exact ⟨_, c, rfl, a, d, rfl, (hA1 rfl).1, (hB1 rfl).1, hAB rfl rfl⟩
  | cons i rem ih =>
    intro c vA vB v6 v7 a d hmem hc hA0 hA1 hB0 hB1 hAB hcovA hcovB
    have hi8 : i < 8 := hmem i (List.mem_cons_self i rem)
    have hmem' : ∀ i' ∈ rem, i' < 8 := fun i' h => hmem i' (List.mem_cons_of_mem i h)
    have shrinkA : (∃ j ∈ i :: rem, j < 4) → ¬ i < 4 → ∃ j ∈ rem, j < 4 := by
      rintro ⟨j, hj, hj4⟩ hni
      rcases List.mem_cons.1 hj with rfl | hj
      · exact absurd hj4 hni
      · exact ⟨j, hj, hj4⟩
    have shrinkB : (∃ j ∈ i :: rem, 4 ≤ j ∧ j < 6) → ¬ (4 ≤ i ∧ i < 6) →
        ∃ j ∈ rem, 4 ≤ j ∧ j < 6 := by
      rintro ⟨j, hj, hj46⟩ hni
      rcases List.mem_cons.1 hj with rfl | hj
      · exact absurd hj46 hni
      · exact ⟨j, hj, hj46⟩
    interval_cases i
    · -- i = 0
      cases vA
      · obtain rfl : a = 0 := hA0 rfl
        rw [fit8_seed0 b rem c vB vB v6 v7 0 0 0 0 d d 0 0]
        exact ih (c + 1) true vB v6 v7 c d hmem' (by omega)
          (fun h => absurd h (by simp)) (fun _ => ⟨hc, by omega⟩)
          hB0 (fun h => ⟨(hB1 h).1, by have := (hB1 h).2; omega⟩)
          (fun _ h => by have := (hB1 h).2; omega)
          (fun h => absurd h (by simp))
          (fun h => shrinkB (hcovB h) (by omega))
      · rw [fit8_skip0 b rem c vB v6 v7]
        exact ih c true vB v6 v7 a d hmem' hc hA0 hA1 hB0 hB1 hAB
          (fun h => absurd h (by simp))
          (fun h => shrinkB (hcovB h) (by omega))
    · -- i = 1
      cases vA
      · obtain rfl : a = 0 := hA0 rfl
        rw [fit8_seed1 b rem c vB vB v6 v7 0 0 0 0 d d 0 0]
        exact ih (c + 1) true vB v6 v7 c d hmem' (by omega)
          (fun h => absurd h (by simp)) (fun _ => ⟨hc, by omega⟩)
          hB0 (fun h => ⟨(hB1 h).1, by have := (hB1 h).2; omega⟩)
          (fun _ h => by have := (hB1 h).2; omega)
          (fun h => absurd h (by simp))
          (fun h => shrinkB (hcovB h) (by omega))
      · rw [fit8_skip1 b rem c vB v6 v7]
        exact ih c true vB v6 v7 a d hmem' hc hA0 hA1 hB0 hB1 hAB
          (fun h => absurd h (by simp))
          (fun h => shrinkB (hcovB h) (by omega))
    · -- i = 2
      cases vA
      · obtain rfl : a = 0 := hA0 rfl
        rw [fit8_seed2 b rem c vB vB v6 v7 0 0 0 0 d d 0 0]
        exact ih (c + 1) true vB v6 v7 c d hmem' (by omega)
          (fun h => absurd h (by simp)) (fun _ => ⟨hc, by omega⟩)
          hB0 (fun h => ⟨(hB1 h).1, by have := (hB1 h).2; omega⟩)
          (fun _ h => by have := (hB1 h).2; omega)
          (fun h => absurd h (by simp))
          (fun h => shrinkB (hcovB h) (by omega))
      · rw [fit8_skip2 b rem c vB v6 v7]
        exact ih c true vB v6 v7 a d hmem' hc hA0 hA1 hB0 hB1 hAB
          (fun h => absurd h (by simp))
          (fun h => shrinkB (hcovB h) (by omega))
    · -- i = 3
      cases vA
      · obtain rfl : a = 0 := hA0 rfl
        rw [fit8_seed3 b rem c vB vB v6 v7 0 0 0 0 d d 0 0]
        exact ih (c + 1) true vB v6 v7 c d hmem' (by omega)
          (fun h => absurd h (by simp)) (fun _ => ⟨hc, by omega⟩)
          hB0 (fun h => ⟨(hB1 h).1, by have := (hB1 h).2; omega⟩)
          (fun _ h => by have := (hB1 h).2; omega)
          (fun h => absurd h (by simp))
          (fun h => shrinkB (hcovB h) (by omega))
      · rw [fit8_skip3 b rem c vB v6 v7]
        exact ih c true vB v6 v7 a d hmem' hc hA0 hA1 hB0 hB1 hAB
          (fun h => absurd h (by simp))
          (fun h => shrinkB (hcovB h) (by omega))
    · -- i = 4
      cases vB
      · obtain rfl : d = 0 := hB0 rfl
        rw [fit8_seed4 b rem c vA v6 v7 a a a a 0 0 0 0]
        exact ih (c + 1) vA true v6 v7 a c hmem' (by omega)
          hA0 (fun h => ⟨(hA1 h).1, by have := (hA1 h).2; omega⟩)
          (fun h => absurd h (by simp)) (fun _ => ⟨hc, by omega⟩)
          (fun h _ => by have := (hA1 h).2; omega)
          (fun h => shrinkA (hcovA h) (by omega))
          (fun h => absurd h (by simp))
      · rw [fit8_skip4 b rem c vA v6 v7]
        exact ih c vA true v6 v7 a d hmem' hc hA0 hA1 hB0 hB1 hAB
          (fun h => shrinkA (hcovA h) (by omega))
          (fun h => absurd h (by simp))
    · -- i = 5
      cases vB
      · obtain rfl : d = 0 := hB0 rfl
        rw [fit8_seed5 b rem c vA v6 v7 a a a a 0 0 0 0]
        exact ih (c + 1) vA true v6 v7 a c hmem' (by omega)
          hA0 (fun h => ⟨(hA1 h).1, by have := (hA1 h).2; omega⟩)
          (fun h => absurd h (by simp)) (fun _ => ⟨hc, by omega⟩)
          (fun h _ => by have := (hA1 h).2; omega)
          (fun h => shrinkA (hcovA h) (by omega))
          (fun h => absurd h (by simp))
      · rw [fit8_skip5 b rem c vA v6 v7]
        exact ih c vA true v6 v7 a d hmem' hc hA0 hA1 hB0 hB1 hAB
          (fun h => shrinkA (hcovA h) (by omega))
          (fun h => absurd h (by simp))
    · -- i = 6
      cases v6
      · rw [fit8_visit6 b rem c vA vB v7]
        exact ih c vA vB true v7 a d hmem' hc hA0 hA1 hB0 hB1 hAB
          (fun h => shrinkA (hcovA h) (by omega))
          (fun h => shrinkB (hcovB h) (by omega))
      · rw [fit8_skip6 b rem c vA vB v7]
        exact ih c vA vB true v7 a d hmem' hc hA0 hA1 hB0 hB1 hAB
          (fun h => shrinkA (hcovA h) (by omega))
          (fun h => shrinkB (hcovB h) (by omega))
    · -- i = 7
      cases v7
      · rw [fit8_visit7 b rem c vA vB v6]
        exact ih c vA vB v6 true a d hmem' hc hA0 hA1 hB0 hB1 hAB
          (fun h => shrinkA (hcovA h) (by omega))
          (fun h => shrinkB (hcovB h) (by omega))
      · rw [fit8_skip7 b rem c vA vB v6]
        exact ih c vA vB v6 true a d hmem' hc hA0 hA1 hB0 hB1 hAB
          (fun h => shrinkA (hcovA h) (by omega))
          (fun h => shrinkB (hcovB h) (by omega))

/-- `fit` on `data8` with `eps = 0.5`, `min_points = 2`, any borders flag
and any visitation order: groups `{0,1,2,3}` and `{4,5}` get two distinct
non-zero labels and `6`, `7` stay at 0. -/
theorem fit8_main (b : Bool) (perm : List Nat)
    (hperm : perm.Perm (List.range 8)) :
    ∃ st' c', dbscan_fit data8 (1/2) 2 b perm = some (st', c') ∧
      ∃ a' d', st'.clusters = [a', a', a', a', d', d', 0, 0] ∧
        1 ≤ a' ∧ 1 ≤ d' ∧ a' ≠ d' := by
  have hmem : ∀ i ∈ perm, i < 8 := fun i hi =>
    List.mem_range.1 (hperm.mem_iff.1 hi)
  have hA : ∃ i ∈ perm, i < 4 :=
    ⟨0, hperm.mem_iff.2 (List.mem_range.2 (by omega)), by omega⟩
  have hB : ∃ i ∈ perm, 4 ≤ i ∧ i < 6 :=
    ⟨4, hperm.mem_iff.2 (List.mem_range.2 (by omega)), by omega⟩
  exact fit8_loop b perm 1 false false false false 0 0 hmem (le_refl 1)
    (fun _ => rfl) (fun h => absurd h (by simp)) (fun _ => rfl)
    (fun h => absurd h (by simp)) (fun h => absurd h (by simp))
    (fun _ => hA) (fun _ => hB)

/-- `fit`'s state vectors keep their lengths across the whole outer loop,
for any visitation list. -/
theorem fitLoop_lengths (data : List Pt) (eps : ℚ) (mp : Nat) (b : Bool) :
    ∀ (perm : List Nat) (c : Nat) (st : DbscanState) (st' : DbscanState) (c' : Nat),
      fitLoop data eps mp b perm c st = some (st', c') →
      st'.visited.length = st.visited.length ∧
        st'.clusters.length = st.clusters.length := by
  intro perm
  induction perm with
  | nil =>
    intro c st st' c' h
    obtain ⟨rfl, rfl⟩ : st = st' ∧ c = c' := by simpa [fitLoop] using h
    exact ⟨rfl, rfl⟩
  | cons i rem ih =>
    intro c st st' c' h
    simp only [fitLoop] at h
    by_cases hv : st.visited.getD i true = true
    · rw [if_pos hv] at h
      exact ih c st st' c' h
    · rw [if_neg hv] at h
      by_cases hcore : mp ≤ (sortDedupDesc (region_query data eps (data.getD i []))).length
      · rw [if_pos hcore] at h
        rcases hexp : expand data eps mp b c (fuelFor data)
            (sortDedupDesc (region_query data eps (data.getD i [])))
            ⟨st.visited.set i true, st.clusters.set i c⟩ with _ | stE
        · rw [hexp] at h; exact absurd h (by simp)
        · rw [hexp] at h
          simp only at h
          have h1 := ih (c + 1) stE st' c' h
          have h2 := expand_lengths data eps mp b c (fuelFor data) _ _ _ hexp
          simp only [List.length_set] at h2
          omega
      · rw [if_neg hcore] at h
        have h1 := ih c _ st' c' h
        simp only [List.length_set] at h1
        exact h1

/-! ## The claims -/

set_option maxRecDepth 100000 in
set_option maxHeartbeats 1000000 in
unseal Rat.add Rat.sub Rat.mul Rat.inv in
/-- C1 key fact: for the 1-D point set `[1.55, 2.0, 2.1, 2.2, 2.65]` with
`eps = 0.5`, `min_points = 3`: with `include_borders = true` all five
points get the single non-zero label 1; with `include_borders = false`
points 0 and 4 get label 0 and points 1-3 get the shared label 1 — for
every visitation order (checked over all 120 permutations). -/
theorem claim_C1_key : ∀ p ∈ allPerms (List.range 5),
    dbscan_new data5 (1/2) 3 true p = some ⟨1/2, 3, [1, 1, 1, 1, 1]⟩ ∧
    dbscan_new data5 (1/2) 3 false p = some ⟨1/2, 3, [0, 1, 1, 1, 0]⟩ := by
  decide

/-- C1: for the 1-D point set `[1.55, 2.0, 2.1, 2.2, 2.65]` with
`eps = 0.5` and `min_points = 3`, fit with `include_borders = true`
assigns all 5 points the same non-zero label, and with
`include_borders = false` assigns 0 to indices 0 and 4 and one shared
non-zero label to indices 1-3, regardless of the visitation order. -/
theorem claim_C1 (perm : List Nat) (hperm : perm.Perm (List.range 5)) :
    (∃ m, dbscan_new data5 (1/2) 3 true perm = some m ∧
      m.clusters = [1, 1, 1, 1, 1]) ∧
    (∃ m, dbscan_new data5 (1/2) 3 false perm = some m ∧
      m.clusters = [0, 1, 1, 1, 0]) := by
  have h := claim_C1_key perm (mem_allPerms_of_perm hperm)
  exact ⟨⟨_, h.1, rfl⟩, ⟨_, h.2, rfl⟩⟩

/-- C1 witness: the identity visitation order. -/
theorem claim_C1_witness :
    (∃ m, dbscan_new data5 (1/2) 3 true (List.range 5) = some m ∧
      m.clusters = [1, 1, 1, 1, 1]) ∧
    (∃ m, dbscan_new data5 (1/2) 3 false (List.range 5) = some m ∧
      m.clusters = [0, 1, 1, 1, 0]) :=
  claim_C1 (List.range 5) (List.Perm.refl _)

/-- C2: the radius query returns exactly the stored indices whose squared
Euclidean distance to the query point is at most `eps²` (the caller passes
the radius already squared), and the sorted-deduplicated neighbourhood
computed inside `fit` has exactly the same members. -/
theorem claim_C2 (data : List Pt) (eps : ℚ) (q : Pt) (j : Nat) :
    (j ∈ region_query data eps q ↔
      j < data.length ∧ squared_euclidean q (data.getD j []) ≤ eps ^ 2) ∧
    (∀ i : Nat, j ∈ sortDedupDesc (region_query data eps (data.getD i [])) ↔
      j ∈ region_query data eps (data.getD i [])) :=
  ⟨mem_region_query, fun _ => mem_sortDedupDesc⟩

unseal Rat.add Rat.sub Rat.mul Rat.inv in
/-- C3 counterexample: on the 1-D points `[0]` and `[5]` with
`min_points = 2` and the identity order, `eps = 1` yields no cluster but
`eps = 10` yields one: growing `eps` increased the number of distinct
non-zero labels from 0 to 1, refuting the claimed monotonicity of the
cluster count. -/
theorem claim_C3_counterexample :
    (0:ℚ) ≤ 1 ∧ (1:ℚ) ≤ 10 ∧
    dbscan_fit [[0], [5]] 1 2 false [0, 1] = some (⟨[true, true], [0, 0]⟩, 1) ∧
    dbscan_fit [[0], [5]] 10 2 false [0, 1] = some (⟨[true, true], [1, 1]⟩, 2) ∧
    (distinctNonzero [0, 0]).length < (distinctNonzero [1, 1]).length := by
  decide

/-- C3 (amended): for `0 ≤ eps1 ≤ eps2` with the same `min_points` and
borders flag, every point with a non-zero label at radius `eps1` keeps a
non-zero label at radius `eps2` (the noise set shrinks as `eps` grows, for
any visitation orders); the number of distinct labels itself can grow, as
new core points appear. -/
theorem claim_C3 (data : List Pt) (e1 e2 : ℚ) (h0 : 0 ≤ e1) (h12 : e1 ≤ e2)
    (mp : Nat) (b : Bool) (perm1 perm2 : List Nat)
    (hp1 : perm1.Perm (List.range data.length))
    (hp2 : perm2.Perm (List.range data.length))
    (st1 st2 : DbscanState) (c1 c2 : Nat)
    (h1 : dbscan_fit data e1 mp b perm1 = some (st1, c1))
    (h2 : dbscan_fit data e2 mp b perm2 = some (st2, c2))
    (i : Nat) (hi : st1.clusters.getD i 0 ≠ 0) : st2.clusters.getD i 0 ≠ 0 :=
  fit_nonzero_mono data h0 h12 mp b perm1 perm2 hp1 hp2 st1 st2 c1 c2 h1 h2 i hi

unseal Rat.add Rat.sub Rat.mul Rat.inv in
/-- C3 witness: a concrete instance of the amended monotonicity. -/
theorem claim_C3_witness : ∃ st1 st2 : DbscanState,
    dbscan_fit [[0], [5]] 10 2 false (List.range 2) = some (st1, 2) ∧
    dbscan_fit [[0], [5]] 10 2 false (List.range 2) = some (st2, 2) ∧
    st2.clusters.getD 0 0 ≠ 0 := by
  refine ⟨⟨[true, true], [1, 1]⟩, ⟨[true, true], [1, 1]⟩, by decide, by decide, ?_⟩
  exact claim_C3 [[0], [5]] 10 10 (by decide) (by decide) 2 false
    (List.range 2) (List.range 2) (List.Perm.refl _) (List.Perm.refl _)
    ⟨[true, true], [1, 1]⟩ ⟨[true, true], [1, 1]⟩ 2 2 (by decide) (by decide)
    0 (by decide)

/-- C4: with `borders = false`, whether a point ends with a non-zero label
is exactly its core status (neighbourhood of size at least `min_points`,
as computed by the radius query), which does not mention the visitation
order at all — so any two runs of `fit` over different permutations agree
on it. -/
theorem claim_C4 (data : List Pt) (eps : ℚ) (mp : Nat) (perm1 perm2 : List Nat)
    (hp1 : perm1.Perm (List.range data.length))
    (hp2 : perm2.Perm (List.range data.length))
    (st1 st2 : DbscanState) (c1 c2 : Nat)
    (h1 : dbscan_fit data eps mp false perm1 = some (st1, c1))
    (h2 : dbscan_fit data eps mp false perm2 = some (st2, c2))
    (i : Nat) (hiN : i < data.length) :
    (st1.clusters.getD i 0 ≠ 0 ↔ isCore data eps mp i) ∧
    (st2.clusters.getD i 0 ≠ 0 ↔ st1.clusters.getD i 0 ≠ 0) := by
  have a1 := fit_label_iff_core data eps mp perm1 st1 c1 hp1 h1 i hiN
  have a2 := fit_label_iff_core data eps mp perm2 st2 c2 hp2 h2 i hiN
  exact ⟨a1, a2.trans a1.symm⟩

unseal Rat.add Rat.sub Rat.mul Rat.inv in
/-- C4 witness: two runs on a concrete 2-point set. -/
theorem claim_C4_witness :
    ((1 : Nat) ≠ 0 ↔ isCore [[0], [5]] 1 1 0) ∧
    ((1 : Nat) ≠ 0 ↔ (1 : Nat) ≠ 0) := by
  exact claim_C4 [[0], [5]] 1 1 (List.range 2) (List.range 2)
    (List.Perm.refl _) (List.Perm.refl _)
    ⟨[true, true], [1, 2]⟩ ⟨[true, true], [1, 2]⟩ 3 3
    (by decide) (by decide) 0 (by decide)

/-- C5: after `fit`, the returned label assignment has one entry per input
row, every label is below the final counter `c`, and every id in
`1..c-1` is actually used and owned by a core point: the non-zero labels
used are exactly the contiguous range `{1, ..., c-1}`, allocated by the
monotonically incremented counter at each cluster discovery. -/
theorem claim_C5 (data : List Pt) (eps : ℚ) (mp : Nat) (b : Bool)
    (perm : List Nat) (hperm : perm.Perm (List.range data.length))
    (st : DbscanState) (c : Nat)
    (h : dbscan_fit data eps mp b perm = some (st, c)) :
    st.clusters.length = data.length ∧ 1 ≤ c ∧
    (∀ i, st.clusters.getD i 0 < c) ∧
    (∀ k, 1 ≤ k → k < c → ∃ i, i < data.length ∧
      st.clusters.getD i 0 = k ∧ isCore data eps mp i) := by
  obtain ⟨inv, _⟩ := dbscan_fit_final data eps mp b perm st c hperm h
  refine ⟨inv.lenC, inv.cpos, inv.lblLt, ?_⟩
  intro k hk1 hk2
  obtain ⟨i, hiN, hik, hicore, _⟩ := inv.lblOnto k hk1 hk2
  exact ⟨i, hiN, hik, hicore⟩

unseal Rat.add Rat.sub Rat.mul Rat.inv in
/-- C5 witness: the border-points test data. -/
theorem claim_C5_witness :
    ([0, 1, 1, 1, 0] : List Nat).length = data5.length ∧ 1 ≤ 2 ∧
    (∀ i, ([0, 1, 1, 1, 0] : List Nat).getD i 0 < 2) ∧
    (∀ k, 1 ≤ k → k < 2 → ∃ i, i < data5.length ∧
      ([0, 1, 1, 1, 0] : List Nat).getD i 0 = k ∧ isCore data5 (1/2) 3 i) := by
  exact claim_C5 data5 (1/2) 3 false (List.range 5) (List.Perm.refl _)
    ⟨[true, true, true, true, true], [0, 1, 1, 1, 0]⟩ 2 (by decide)

/-- C6: for every model and reference set with as many rows as fitted
labels, `predict` classifies each new point independently: its result row
is the set of distinct non-zero fitted labels of the point's
eps-neighbourhood, or exactly `[0]` when that set is empty. -/
theorem claim_C6 (m : Dbscan) (data : List Pt) (rows : List Pt)
    (hlen : m.clusters.length = data.length) :
    ∃ res, m.predict data rows = some res ∧ res.length = rows.length ∧
      ∀ k, k < rows.length →
        ((∃ lab, lab ≠ 0 ∧ ∃ j ∈ region_query data m.eps (rows.getD k []),
            m.clusters.getD j 0 = lab) →
          ∀ lab, lab ∈ res.getD k [] ↔ lab ≠ 0 ∧
            ∃ j ∈ region_query data m.eps (rows.getD k []),
              m.clusters.getD j 0 = lab) ∧
        ((¬ ∃ lab, lab ≠ 0 ∧ ∃ j ∈ region_query data m.eps (rows.getD k []),
            m.clusters.getD j 0 = lab) →
          res.getD k [] = [0]) := by
  obtain ⟨res, hres⟩ := predict_isSome m data hlen rows
  obtain ⟨hreslen, hrow⟩ := predict_spec m data rows res hres
  refine ⟨res, hres, hreslen, ?_⟩
  intro k hk
  have hbound : ∀ j ∈ region_query data m.eps (rows.getD k []),
      j < m.clusters.length := by
    intro j hj
    rw [hlen]
    exact (mem_region_query.1 hj).1
  obtain ⟨r, hr, hne, hemp⟩ := predict_row_spec m data (rows.getD k []) hbound
  have : r = res.getD k [] := by
    have := hrow k hk
    rw [hr] at this
    injection this
  rw [this] at hne hemp
  exact ⟨hne, hemp⟩

/-- C6 witness: a 2-point reference set, one clustered query and one noise
query. -/
theorem claim_C6_witness :
    ∃ res, Dbscan.predict ⟨1, 1, [1, 2]⟩ [[0], [5]] [[0], [9]] = some res ∧
      res.length = ([[0], [9]] : List Pt).length ∧
      ∀ k, k < ([[0], [9]] : List Pt).length →
        ((∃ lab, lab ≠ 0 ∧ ∃ j ∈ region_query [[0], [5]] 1
            (([[0], [9]] : List Pt).getD k []), ([1, 2] : List Nat).getD j 0 = lab) →
          ∀ lab, lab ∈ res.getD k [] ↔ lab ≠ 0 ∧
            ∃ j ∈ region_query [[0], [5]] 1 (([[0], [9]] : List Pt).getD k []),
              ([1, 2] : List Nat).getD j 0 = lab) ∧
        ((¬ ∃ lab, lab ≠ 0 ∧ ∃ j ∈ region_query [[0], [5]] 1
            (([[0], [9]] : List Pt).getD k []), ([1, 2] : List Nat).getD j 0 = lab) →
          res.getD k [] = [0]) :=
  claim_C6 ⟨1, 1, [1, 2]⟩ [[0], [5]] [[0], [9]] rfl

/-- C7 counterexample: on an empty point set `fit` does not fail — it
returns a model with an empty, complete label assignment (the claim says
construction fails with `DimensionMismatch` when `N = 0`). -/
theorem claim_C7_counterexample :
    dbscan_new [] 1 2 false [] = some ⟨1, 2, []⟩ := rfl

/-- C7 (amended): the point-set construction (modelled from the spec; it
is performed by the caller, outside `fit`) rejects rows of inconsistent
dimensionality, while `fit` itself never fails: for every point set —
including `N = 0` — and every parameters it returns a complete label
assignment with exactly one entry per row. -/
theorem claim_C7 :
    (∀ (r : Pt) (rs : List Pt) (s : Pt), s ∈ rs → s.length ≠ r.length →
      build_point_set (r :: rs) = none) ∧
    (∀ (data : List Pt) (eps : ℚ) (mp : Nat) (b : Bool) (perm : List Nat),
      ∃ st c, dbscan_fit data eps mp b perm = some (st, c) ∧
        st.clusters.length = data.length) := by
  constructor
  · intro r rs s hs hlen
    have : ¬ rs.all (fun s => s.length = r.length) = true := by
      intro hall
      have := List.all_eq_true.1 hall s hs
      simp only [decide_eq_true_eq] at this
      exact hlen this
    simp only [build_point_set]
    rw [if_neg this]
  · intro data eps mp b perm
    obtain ⟨⟨st, c⟩, hout⟩ := fitLoop_isSome data eps mp b perm 1
      ⟨List.replicate data.length false, List.replicate data.length 0⟩
      (List.length_replicate _ _)
    refine ⟨st, c, hout, ?_⟩
    have := (fitLoop_lengths data eps mp b perm 1 _ st c hout).2
    simpa [List.length_replicate] using this

/-- C7 witness: a concrete inconsistent construction and the `N = 0` fit. -/
theorem claim_C7_witness :
    build_point_set [[(1 : ℚ)], [2, 3]] = none ∧
    ∃ st c, dbscan_fit [] 1 2 false [] = some (st, c) ∧
      st.clusters.length = ([] : List Pt).length :=
  ⟨claim_C7.1 [(1 : ℚ)] [[2, 3]] [2, 3] (List.mem_cons_self _ _) (by decide),
    claim_C7.2 [] 1 2 false []⟩

/-- C8: on the 8-point two-dimensional test set with `eps = 0.5` and
`min_points = 2`, for either borders flag and every visitation order:
indices 0-3 share one label, 4-5 share a second, 6-7 share a third, and
the three labels are pairwise distinct (the third group's shared label is
0: its two points are farther than `eps` apart, so neither is core). -/
theorem claim_C8 (b : Bool) (perm : List Nat)
    (hperm : perm.Perm (List.range 8)) :
    ∃ m, dbscan_new data8 (1/2) 2 b perm = some m ∧
      (m.clusters.getD 0 0 = m.clusters.getD 1 0 ∧
       m.clusters.getD 1 0 = m.clusters.getD 2 0 ∧
       m.clusters.getD 2 0 = m.clusters.getD 3 0) ∧
      m.clusters.getD 4 0 = m.clusters.getD 5 0 ∧
      m.clusters.getD 6 0 = m.clusters.getD 7 0 ∧
      m.clusters.getD 0 0 ≠ m.clusters.getD 4 0 ∧
      m.clusters.getD 4 0 ≠ m.clusters.getD 6 0 ∧
      m.clusters.getD 6 0 ≠ m.clusters.getD 0 0 := by
  obtain ⟨st', c', hfit, a', d', hcl, ha, hd, hne⟩ := fit8_main b perm hperm
  refine ⟨⟨1/2, 2, st'.clusters⟩, ?_, ?_⟩
  · rw [dbscan_new, hfit]; rfl
  · rw [hcl]
    refine ⟨⟨rfl, rfl, rfl⟩, rfl, rfl, hne, ?_, ?_⟩
    · show d' ≠ 0
      omega
    · show (0 : Nat) ≠ a'
      omega

/-- C8 witness: the identity visitation order with both borders flags
covered by `borders = false`. -/
theorem claim_C8_witness :
    ∃ m, dbscan_new data8 (1/2) 2 false (List.range 8) = some m ∧
      (m.clusters.getD 0 0 = m.clusters.getD 1 0 ∧
       m.clusters.getD 1 0 = m.clusters.getD 2 0 ∧
       m.clusters.getD 2 0 = m.clusters.getD 3 0) ∧
      m.clusters.getD 4 0 = m.clusters.getD 5 0 ∧
      m.clusters.getD 6 0 = m.clusters.getD 7 0 ∧
      m.clusters.getD 0 0 ≠ m.clusters.getD 4 0 ∧
      m.clusters.getD 4 0 ≠ m.clusters.getD 6 0 ∧
      m.clusters.getD 6 0 ≠ m.clusters.getD 0 0 :=
  claim_C8 false (List.range 8) (List.Perm.refl _)

unseal Rat.add Rat.sub Rat.mul Rat.inv in
/-- C9: when the reference set passed to `predict` has exactly as many
rows as the fitted labelling, every label lookup is in bounds and
`predict` returns a result; with a reference set of more rows than the
fitted labels, the lookup goes out of bounds (modelled as `none`, a Rust
index panic) on a concrete fitted model. -/
theorem claim_C9 :
    (∀ (m : Dbscan) (data rows : List Pt),
      m.clusters.length = data.length →
      ∃ res, m.predict data rows = some res) ∧
    (∃ m, dbscan_new [[(0 : ℚ)]] 1 2 false [0] = some m ∧
      m.predict [[0], [0]] [[0]] = none) := by
  refine ⟨fun m data rows hlen => predict_isSome m data hlen rows,
    ⟨⟨1, 2, [0]⟩, by decide, by decide⟩⟩

/-- C9 witness: the in-bounds direction at a concrete model. -/
theorem claim_C9_witness :
    ∃ res, Dbscan.predict ⟨1, 2, [0, 0]⟩ [[0], [5]] [[0]] = some res :=
  claim_C9.1 ⟨1, 2, [0, 0]⟩ [[0], [5]] [[0]] rfl

/-- C10: `fit` terminates for every input: with the fuel bound
`(N+1)·(N+1)+1` the inner expansion loop always drains its working set
(each iteration pops one index and only a fresh visit, of which there are
at most N, can extend the set), so `dbscan_fit` always returns a complete
result. -/
theorem claim_C10 (data : List Pt) (eps : ℚ) (mp : Nat) (b : Bool)
    (perm : List Nat) : ∃ out, dbscan_fit data eps mp b perm = some out :=
  dbscan_fit_isSome data eps mp b perm

end Clust
